import Mathlib

/-!
Shallow embedding of the ledger mutation engine of `src/beancount.rs`
(crate `beancounters`), together with proofs about the claims of the
specification.  File contents are modelled as lists of characters
(`Str`); for the ASCII contents the claims range over, one character is
one byte, so Rust byte offsets coincide with list indices.  The external
grammar parser (`beancount_parser_lima`) is not part of the repository;
where a claim needs it, a definition explicitly marked
`Modelled from the spec:` stands in for it, restricted to the minimal
synthesized entry format of the specification.
-/

/-- File text: a list of characters (one byte per character for ASCII). -/
abbrev Str := List Char

/-- `Dir` models the file system as an association list from full path to
file content; the first binding for a path is its current content. -/
abbrev Dir := List (Str × Str)

/-- Lookup of a file's content (`fs::read_to_string`), `none` when absent. -/
def fsRead : Dir → Str → Option Str
  | [], _ => none
  | (q, c) :: rest, p => if q = p then some c else fsRead rest p

/-- Overwrite (or create) a file with the given content (`fs::write`). -/
def fsWrite : Dir → Str → Str → Dir
  | [], p, c => [(p, c)]
  | (q, d) :: rest, p, c => if q = p then (p, c) :: rest else (q, d) :: fsWrite rest p c

/-- Append text to a file, creating it when absent
(`OpenOptions::new().create(true).append(true)` followed by `write_all`). -/
def fsAppend (dir : Dir) (p : Str) (t : Str) : Dir :=
  match fsRead dir p with
  | some c => fsWrite dir p (c ++ t)
  | none => fsWrite dir p t

/-- Lexicographic `≤` on character lists, the order Rust's `String::cmp`
induces on ASCII text (byte-wise lexicographic comparison). -/
def strLe : Str → Str → Bool
  | [], _ => true
  | _ :: _, [] => false
  | a :: as, b :: bs => if a < b then true else if b < a then false else strLe as bs

/-- Substring containment, the model of Rust's `str::contains` with a
string pattern. -/
def containsSub (pat : Str) : Str → Bool
  | [] => pat.isEmpty
  | c :: rest => pat.isPrefixOf (c :: rest) || containsSub pat rest

/-- Split a character list at every occurrence of a separator character;
always returns at least one (possibly empty) segment. -/
def splitCh (sep : Char) : Str → List Str
  | [] => [[]]
  | c :: rest =>
    if c = sep then [] :: splitCh sep rest
    else
      match splitCh sep rest with
      | [] => [[c]]
      | s :: ss => (c :: s) :: ss

/-- The model of Rust's `str::lines` (contents here never contain `'\r'`):
split on `'\n'`, without a final empty segment for a trailing newline. -/
def rustLines (s : Str) : List Str :=
  match s with
  | [] => []
  | _ =>
    if s.getLast? = some '\n' then (splitCh '\n' s).dropLast else splitCh '\n' s

/-- Step-indexed decimal rendering (the step budget only makes the
recursion structural; `natToDec` supplies a sufficient budget). -/
def natToDecF : Nat → Nat → Str
  | 0, _ => []
  | fuel + 1, n =>
    if n < 10 then [Nat.digitChar n]
    else natToDecF fuel (n / 10) ++ [Nat.digitChar (n % 10)]

/-- Decimal digit rendering of a natural number, the model of Rust's
`Display` for `usize` (as used by `format!`). -/
def natToDec (n : Nat) : Str := natToDecF (n + 1) n

/-- Numeric value of a digit character. -/
def charVal (c : Char) : Nat := c.toNat - 48

/-- Whether a character is an ASCII decimal digit. -/
def isDig (c : Char) : Bool := 48 ≤ c.toNat && c.toNat ≤ 57

/-- Value of a digit string (leading zeros allowed), by Horner evaluation. -/
def digitsVal (s : Str) : Nat := s.foldl (fun a c => a * 10 + charVal c) 0

/-- The model of Rust's `str::parse::<usize>()`: an optional leading `'+'`
followed by at least one ASCII digit (overflow is not modelled). -/
def parseUsize (s : Str) : Option Nat :=
  match s with
  | [] => none
  | c :: rest =>
    if c = '+' then
      if rest ≠ [] ∧ rest.all isDig then some (digitsVal rest) else none
    else if (c :: rest).all isDig then some (digitsVal (c :: rest)) else none

/-- Zero-pad a decimal rendering on the left to a given width, the model
of chrono's zero-padded numeric formatting (`%Y`, `%m`). -/
def padDec (width n : Nat) : Str :=
  List.replicate (width - (natToDec n).length) '0' ++ natToDec n

/-- Iterate a function `n` times. -/
def applyN (f : α → α) : Nat → α → α
  | 0, a => a
  | n + 1, a => applyN f n (f a)

/-- The `Posting` record of `src/model.rs`. -/
structure Posting where
  account : Str
  amount : Str
  currency : Str
  cost : Option Str
  price : Option Str
deriving Repr, DecidableEq

/-- The `Transaction` record of `src/model.rs`. -/
structure Transaction where
  id : Option Str
  date : Str
  flag : Str
  payee : Option Str
  narration : Option Str
  tags : List Str
  postings : List Posting
deriving Repr, DecidableEq

/-- A half-open byte range `[start, stop)` inside a file, as reported by
the grammar parser for a token. -/
structure Span where
  start : Nat
  stop : Nat
deriving Repr, DecidableEq

/-- A parsed posting as the grammar parser exposes it: the account token
with its span, and optional amount and currency tokens (the parser
reports a span for the amount; the embedded code never reads a currency
span). -/
structure ParsedPosting where
  account : Str
  accountSpan : Span
  amount : Option Str
  amountSpan : Option Span
  currency : Option Str
deriving Repr, DecidableEq

/-- A parsed transaction directive as the grammar parser exposes it. -/
structure ParsedTxn where
  dateStr : Str
  dateSpan : Span
  flag : Str
  payee : Option Str
  narration : Option Str
  narrationSpan : Option Span
  postings : List ParsedPosting
deriving Repr, DecidableEq

/-- A directive returned by the grammar parser: a transaction, or any
other directive variant (which the embedded code skips). -/
inductive Directive where
  | txn (t : ParsedTxn)
  | other
deriving Repr, DecidableEq

/-- Error outcomes of the embedded operations (the Rust code surfaces all
of them as `anyhow` errors; the spec's taxonomy distinguishes them). -/
inductive BcErr where
  | invalidId
  | invalidDate
  | ioError
  | notFound
deriving Repr, DecidableEq

/-- Join two path components with a separator (`Path::join`). -/
def pathJoin (d : Str) (f : Str) : Str := d ++ '/' :: f

/-- Identifier encoding `format!("{}:{}", path_str, start)` from
`parse_file_transactions`. -/
def encodeId (path : Str) (offset : Nat) : Str := path ++ ':' :: natToDec offset

/-- The model of Rust's `splitn(2, ':')`: at most two parts, split at the
first colon. -/
def splitn2Colon : Str → List Str
  | [] => [[]]
  | c :: rest =>
    if c = ':' then [[], rest]
    else
      match splitn2Colon rest with
      | [] => [[c]]
      | s :: ss => (c :: s) :: ss

/-- Identifier decoding, the first half of `delete_transaction`
(`src/beancount.rs:155-160`): split on the first colon, require two
parts, parse the second as a non-negative integer. -/
def decodeId (id : Str) : Except BcErr (Str × Nat) :=
  match splitn2Colon id with
  | [p, o] =>
    match parseUsize o with
    | some n => Except.ok (p, n)
    | none => Except.error BcErr.invalidId
  | _ => Except.error BcErr.invalidId

/-- Lines of a text paired with the byte offset of their first character,
counted from `off`. -/
def splitNlOff (off : Nat) : Str → List (Nat × Str)
  | [] => [(off, [])]
  | c :: rest =>
    if c = '\n' then (off, []) :: splitNlOff (off + 1) rest
    else
      match splitNlOff (off + 1) rest with
      | [] => [(off, [c])]
      | (_, s) :: ss => (off, c :: s) :: ss

/-- First space-delimited token of a line. -/
def tokTake (s : Str) : Str := s.takeWhile (fun c => c ≠ ' ')

/-- The rest of a line after its first space-delimited token and the
following space. -/
def tokDrop (s : Str) : Str := s.drop ((tokTake s).length + 1)

/-- Modelled from the spec: how the external grammar parser tokenizes one
synthesized posting line `"  account amount currency"` (two-space indent,
three space-separated tokens), reporting the account and amount token
spans. -/
def parsePostingLine (off : Nat) (l : Str) : ParsedPosting :=
  let rest := l.drop 2
  let acc := tokTake rest
  let r2 := tokDrop rest
  let amt := tokTake r2
  let cur := tokDrop r2
  { account := acc
    accountSpan := ⟨off + 2, off + 2 + acc.length⟩
    amount := some amt
    amountSpan := some ⟨off + 2 + acc.length + 1, off + 2 + acc.length + 1 + amt.length⟩
    currency := some cur }

/-- Modelled from the spec: how the external grammar parser reads one
synthesized header line `date flag "payee" "narration"` together with its
posting lines; the date-token span starts at the line's offset, and the
narration span covers the final quoted token. -/
def parseHeaderLine (off : Nat) (l : Str) (ps : List (Nat × Str)) : ParsedTxn :=
  let date := tokTake l
  let r1 := tokDrop l
  let flag := tokTake r1
  let r2 := tokDrop r1
  let payee := (r2.drop 1).takeWhile (fun c => c ≠ '"')
  let r3 := (r2.drop 1).drop (payee.length + 2)
  let narr := (r3.drop 1).takeWhile (fun c => c ≠ '"')
  { dateStr := date
    dateSpan := ⟨off, off + date.length⟩
    flag := flag
    payee := some payee
    narration := some narr
    narrationSpan := some ⟨off + l.length - (narr.length + 2), off + l.length⟩
    postings := ps.map (fun p => parsePostingLine p.1 p.2) }

/-- A synthesized posting line: two leading spaces. -/
def isPostingLine (l : Str) : Bool := [' ', ' '].isPrefixOf l

/-- A line starting a transaction directive: begins with a date digit. -/
def startsTxn (l : Str) : Bool :=
  match l with
  | [] => false
  | c :: _ => isDig c

/-- Modelled from the spec: grouping of offset-annotated lines into
transaction directives — a digit-led line is a header, the following
two-space-indented lines are its postings, every other line separates
entries. -/
def groupTxnsF : Nat → List (Nat × Str) → List ParsedTxn
  | 0, _ => []
  | _ + 1, [] => []
  | fuel + 1, (off, l) :: rest =>
    if startsTxn l then
      parseHeaderLine off l (rest.takeWhile (fun p => isPostingLine p.2))
        :: groupTxnsF fuel (rest.dropWhile (fun p => isPostingLine p.2))
    else groupTxnsF fuel rest

/-- Grouping of offset-annotated lines into transaction directives, with a
sufficient step budget (the budget only makes the recursion structural). -/
def groupTxns (ls : List (Nat × Str)) : List ParsedTxn :=
  groupTxnsF (ls.length + 1) ls

/-- Modelled from the spec: the external grammar parser
(`beancount_parser_lima`), restricted to the minimal synthesized entry
format the Entry Synthesizer produces — in that subset every directive is
a transaction. -/
def parseLedger (content : Str) : List Directive :=
  (groupTxns (splitNlOff 0 content)).map Directive.txn

/-- Extract the transaction variant of a directive
(the `if let DirectiveVariant::Transaction` filter). -/
def dirTxn : Directive → Option ParsedTxn
  | Directive.txn t => some t
  | Directive.other => none

/-- Span-end resolution of `delete_transaction`
(`src/beancount.rs:175-184`): start from the date-token end, fold in the
narration end when present and, for every posting, the account-token end
and the amount-token end when present. -/
def resolveEnd (t : ParsedTxn) : Nat :=
  let e1 := t.dateSpan.stop
  let e2 :=
    match t.narrationSpan with
    | some n => max e1 n.stop
    | none => e1
  t.postings.foldl (fun e p =>
    let ea := max e p.accountSpan.stop
    match p.amountSpan with
    | some a => max ea a.stop
    | none => ea) e2

/-- The first transaction directive whose date-token span starts at the
requested byte offset (`src/beancount.rs:172-190`). -/
def findTarget (ds : List Directive) (startByte : Nat) : Option ParsedTxn :=
  match ds with
  | [] => none
  | Directive.txn t :: rest =>
    if t.dateSpan.start = startByte then some t else findTarget rest startByte
  | Directive.other :: rest => findTarget rest startByte

/-- The body of the end-expansion loop, walking the remaining suffix of
the content while counting positions: advance past non-newline
characters, then consume one newline when one is present before
end-of-file. -/
def expandEndAux : Str → Nat → Nat
  | [], e => e
  | c :: rest, e => if c = '\n' then e + 1 else expandEndAux rest (e + 1)

/-- The end-expansion loop of `delete_transaction`
(`src/beancount.rs:193-199`): the character examined at position `e` is
the head of `content.drop e`. -/
def expandEnd (content : Str) (e : Nat) : Nat :=
  expandEndAux (content.drop e) e

/-- The same loop with an explicit step budget and explicit bounds
checking: `none` models either exhausting the budget (non-termination)
or an out-of-bounds single-character slice (a panic). -/
def expandEndFuel (content : Str) : Nat → Nat → Option Nat
  | 0, _ => none
  | fuel + 1, e =>
    if e < content.length then
      match content.get? e with
      | none => none
      | some c => if c = '\n' then some (e + 1) else expandEndFuel content fuel (e + 1)
    else some e

/-- The splice step of `delete_transaction` (`src/beancount.rs:192-202`):
drop the range from the span start to the expanded end. -/
def spliceContent (content : Str) (start e0 : Nat) : Str :=
  content.take start ++ content.drop (expandEnd content e0)

/-- `delete_transaction` (`src/beancount.rs:154-208`), parameterized by
the external grammar parser `P` (a black box turning file content into
directives): decode the identifier, read the file, resolve the target
span, splice, write the result back. -/
def delete_transaction (P : Str → List Directive) (dir : Dir) (id : Str) :
    Option BcErr × Dir :=
  match decodeId id with
  | Except.error e => (some e, dir)
  | Except.ok (path, startByte) =>
    match fsRead dir path with
    | none => (some BcErr.ioError, dir)
    | some content =>
      match findTarget (P content) startByte with
      | none => (some BcErr.notFound, dir)
      | some t =>
        (none, fsWrite dir path (spliceContent content startByte (resolveEnd t)))

/-- Number of days of a month in the proleptic Gregorian calendar. -/
def daysInMonth (y m : Nat) : Nat :=
  if m = 2 then (if y % 4 = 0 ∧ (y % 100 ≠ 0 ∨ y % 400 = 0) then 29 else 28)
  else if m = 4 ∨ m = 6 ∨ m = 9 ∨ m = 11 then 30
  else 31

/-- Modelled from the spec: chrono's `NaiveDate::parse_from_str` with the
`%Y-%m-%d` format (the chrono crate is external; per the spec the date is
ISO 8601 `YYYY-MM-DD`): three dash-separated digit fields forming a valid
calendar date. -/
def chronoParseYMD (s : Str) : Option (Nat × Nat × Nat) :=
  match splitCh '-' s with
  | [ys, ms, ds] =>
    if ys ≠ [] ∧ ys.all isDig ∧ ms ≠ [] ∧ ms.all isDig ∧ ds ≠ [] ∧ ds.all isDig then
      let y := digitsVal ys
      let m := digitsVal ms
      let d := digitsVal ds
      if 1 ≤ m ∧ m ≤ 12 ∧ 1 ≤ d ∧ d ≤ daysInMonth y m then some (y, m, d) else none
    else none
  | _ => none

/-- The period file name derived in `add_transaction`
(`src/beancount.rs:131`): the chrono-formatted year (`%Y`, four digits)
and two-digit month. -/
def periodFilename (y m : Nat) : Str :=
  padDec 4 y ++ '-' :: padDec 2 m ++ ".bean".toList

/-- The transaction text synthesized by `add_transaction`
(`src/beancount.rs:134-137`): a leading blank line, the header line
`date flag "payee" "narration"` (absent payee or narration rendered as
the empty string), and one indented `  account amount currency` line per
posting. -/
def renderTxn (tx : Transaction) : Str :=
  '\n' :: tx.date ++ ' ' :: tx.flag
    ++ ' ' :: '"' :: tx.payee.getD [] ++ '"' :: ' ' :: '"' :: tx.narration.getD [] ++ ['"', '\n']
    ++ tx.postings.flatMap (fun p =>
        ' ' :: ' ' :: p.account ++ ' ' :: p.amount ++ ' ' :: p.currency ++ ['\n'])

/-- The include directive line `include "{filename}"` of
`src/beancount.rs:145`. -/
def includeLine (filename : Str) : Str :=
  "include \"".toList ++ filename ++ ['"']

/-- The root-file content update of `add_transaction`
(`src/beancount.rs:143-149`): append the include line, wrapped in
newlines, unless the current content already contains it as a substring. -/
def updateMain (filename : Str) (main : Str) : Str :=
  if containsSub (includeLine filename) main then main
  else main ++ '\n' :: includeLine filename ++ ['\n']

/-- `add_transaction` (`src/beancount.rs:129-152`): parse the date, append
the synthesized text to the period file, then ensure the root file
`main.bean` contains the include line for that period file (a missing
root file reads as empty). -/
def add_transaction (dataDir : Str) (dir : Dir) (tx : Transaction) :
    Option BcErr × Dir :=
  match chronoParseYMD tx.date with
  | none => (some BcErr.invalidDate, dir)
  | some (y, m, _) =>
    let filename := periodFilename y m
    let dir1 := fsAppend dir (pathJoin dataDir filename) (renderTxn tx)
    let mainPath := pathJoin dataDir "main.bean".toList
    let mainContent := (fsRead dir1 mainPath).getD []
    if containsSub (includeLine filename) mainContent then (none, dir1)
    else (none, fsAppend dir1 mainPath ('\n' :: includeLine filename ++ ['\n']))

/-- `update_transaction` (`src/beancount.rs:210-214`): delete the entry,
then re-add the replacement into the source's hard-coded ledger
directory `data`. -/
def update_transaction (P : Str → List Directive) (dir : Dir) (id : Str)
    (tx : Transaction) : Option BcErr × Dir :=
  match delete_transaction P dir id with
  | (some e, dir1) => (some e, dir1)
  | (none, dir1) => add_transaction "data".toList dir1 tx

/-- The spec's wording of the update contract, as its own program:
`delete_transaction(id)` followed, when the delete succeeded, by
`add_transaction(T')` on the ledger directory the update writes to
(`data` in the source); a failed delete stops the sequence. -/
def specDeleteThenAdd (P : Str → List Directive) (dir : Dir) (id : Str)
    (tx : Transaction) : Option BcErr × Dir :=
  let step1 := delete_transaction P dir id
  match step1.1 with
  | some e => (some e, step1.2)
  | none => add_transaction "data".toList step1.2 tx

/-- Rust `Path::extension` on a file name: the part after the last dot,
absent when there is no dot or when the only dot leads a hidden file
name. -/
def extension (name : Str) : Option Str :=
  let parts := splitCh '.' name
  if parts.length ≤ 1 then none
  else if parts.length = 2 ∧ parts.head? = some [] then none
  else parts.getLast?

/-- The depth-1 walk filter of `list_transactions`
(`src/beancount.rs:11-17`): a path is visited when it is a direct child
of the ledger directory (no further separator), carries the `bean`
extension, and is not the root file `main.bean`; returns the file name. -/
def walkName (dataDir : Str) (path : Str) : Option Str :=
  if (dataDir ++ ['/']).isPrefixOf path then
    let name := path.drop (dataDir.length + 1)
    if name.contains '/' then none
    else if extension name = some "bean".toList ∧ name ≠ "main.bean".toList then some name
    else none
  else none

/-- The record construction of `parse_file_transactions`
(`src/beancount.rs:38-68`) for one parsed transaction of a file: tags are
never populated, cost and price are dropped, absent amount or currency
tokens render as empty strings, and the id encodes the file path and the
date-token start offset. -/
def toTransaction (path : Str) (t : ParsedTxn) : Transaction :=
  { id := some (encodeId path t.dateSpan.start)
    date := t.dateStr
    flag := t.flag
    payee := t.payee
    narration := t.narration
    tags := []
    postings := t.postings.map (fun p =>
      { account := p.account
        amount := p.amount.getD []
        currency := p.currency.getD []
        cost := none
        price := none }) }

/-- The sort comparator of `list_transactions` (`src/beancount.rs:24`),
`b.date.cmp(&a.date)`: descending by date. -/
def txnLe (a b : Transaction) : Bool := strLe b.date a.date

/-- `parse_file_transactions` (`src/beancount.rs:29-72`), with the grammar
parser `P` supplied as the black-box parameter: every transaction
directive of the file becomes a `Transaction` record. -/
def parse_file_transactions (P : Str → List Directive) (path content : Str) :
    List Transaction :=
  ((P content).filterMap dirTxn).map (toTransaction path)

/-- `list_transactions` (`src/beancount.rs:8-27`), with the grammar parser
`P` supplied as the black-box parameter: parse every file the depth-1
walk visits, concatenate, and sort descending by date (Rust's stable
`sort_by`, modelled by a stable merge sort). -/
def list_transactions (P : Str → List Directive) (dataDir : Str) (dir : Dir) :
    List Transaction :=
  (dir.flatMap (fun pc =>
    match walkName dataDir pc.1 with
    | some _ => parse_file_transactions P pc.1 pc.2
    | none => [])).mergeSort txnLe

/-- The line filter at the heart of `delete_account`
(`src/beancount.rs:225-232`): keep every line of the accounts file that
does not contain the substring `open {name}`, join with newlines, append
a final newline. -/
def delete_account_content (name : Str) (content : Str) : Str :=
  List.intercalate ['\n'] ((rustLines content).filter
    (fun l => !containsSub ("open ".toList ++ name) l)) ++ ['\n']

/-- `delete_account` (`src/beancount.rs:225-232`): rewrite the accounts
file through the line filter. -/
def delete_account (dataDir : Str) (dir : Dir) (name : Str) :
    Option BcErr × Dir :=
  let path := pathJoin dataDir "accounts.bean".toList
  match fsRead dir path with
  | none => (some BcErr.ioError, dir)
  | some content => (none, fsWrite dir path (delete_account_content name content))

/-! ## Lemmas about decimal rendering and parsing -/

theorem isDig_digitChar {d : Nat} (h : d < 10) : isDig (Nat.digitChar d) = true := by
  interval_cases d <;> decide

theorem charVal_digitChar {d : Nat} (h : d < 10) : charVal (Nat.digitChar d) = d := by
  interval_cases d <;> decide

theorem natToDecF_stable : ∀ f1 f2 n, n < f1 → n < f2 →
    natToDecF f1 n = natToDecF f2 n := by
  intro f1
  induction f1 with
  | zero => intro f2 n h1; exact absurd h1 (Nat.not_lt_zero n)
  | succ f1 ih =>
    intro f2 n h1 h2
    obtain ⟨f2p, rfl⟩ : ∃ k, f2 = k + 1 :=
      ⟨f2 - 1, by omega⟩
    by_cases h : n < 10
    · simp [natToDecF, h]
    · simp only [natToDecF, if_neg h]
      rw [ih f2p (n / 10) (by omega) (by omega)]

theorem natToDec_unfold (n : Nat) :
    natToDec n = if n < 10 then [Nat.digitChar n]
      else natToDec (n / 10) ++ [Nat.digitChar (n % 10)] := by
  show natToDecF (n + 1) n = _
  rw [natToDecF]
  by_cases h : n < 10
  · rw [if_pos h, if_pos h]
  · rw [if_neg h, if_neg h,
      natToDecF_stable n (n / 10 + 1) (n / 10) (by omega) (by omega)]
    rfl

theorem natToDec_ne_nil (n : Nat) : natToDec n ≠ [] := by
  induction n using Nat.strong_induction_on with
  | _ n ih =>
    rw [natToDec_unfold]
    by_cases h : n < 10
    · simp [h]
    · simp [h]

theorem natToDec_all_isDig (n : Nat) : (natToDec n).all isDig = true := by
  induction n using Nat.strong_induction_on with
  | _ n ih =>
    rw [natToDec_unfold]
    by_cases h : n < 10
    · simp [h, isDig_digitChar h]
    · simp only [if_neg h, List.all_append, List.all_cons, List.all_nil]
      simp [ih (n / 10) (by omega), isDig_digitChar (Nat.mod_lt n (by omega))]

theorem digitsVal_append_singleton (a : Str) (c : Char) :
    digitsVal (a ++ [c]) = digitsVal a * 10 + charVal c := by
  simp [digitsVal, List.foldl_append]

theorem digitsVal_natToDec (n : Nat) : digitsVal (natToDec n) = n := by
  induction n using Nat.strong_induction_on with
  | _ n ih =>
    rw [natToDec_unfold]
    by_cases h : n < 10
    · simp [h, digitsVal, charVal_digitChar h]
    · simp only [if_neg h, digitsVal_append_singleton, ih (n / 10) (by omega),
        charVal_digitChar (Nat.mod_lt n (by omega))]
      omega

theorem parseUsize_natToDec (n : Nat) : parseUsize (natToDec n) = some n := by
  obtain ⟨c, cs, hcons⟩ := List.exists_cons_of_ne_nil (natToDec_ne_nil n)
  have hall : (natToDec n).all isDig = true := natToDec_all_isDig n
  have hc : isDig c = true := by
    rw [hcons] at hall
    simp [List.all_cons] at hall
    exact hall.1
  have hplus : c ≠ '+' := by
    intro he
    rw [he] at hc
    exact absurd hc (by decide)
  have hval : digitsVal (natToDec n) = n := digitsVal_natToDec n
  rw [hcons] at hall hval ⊢
  simp [parseUsize, hplus, hall, hval]

theorem mem_of_isDig_false_of_all {s : Str} (h : s.all isDig = true) {c : Char}
    (hc : isDig c = false) : c ∉ s := by
  intro hmem
  rw [List.all_eq_true] at h
  have := h c hmem
  rw [hc] at this
  exact absurd this (by decide)

theorem colon_not_mem_natToDec (n : Nat) : ':' ∉ natToDec n :=
  mem_of_isDig_false_of_all (natToDec_all_isDig n) (by decide)

/-! ## Lemmas about identifier splitting -/

theorem splitn2Colon_no_colon {s : Str} (h : ':' ∉ s) : splitn2Colon s = [s] := by
  induction s with
  | nil => rfl
  | cons c cs ih =>
    have hc : c ≠ ':' := fun he => h (he ▸ List.mem_cons_self c cs)
    have hcs : ':' ∉ cs := fun hm => h (List.mem_cons_of_mem c hm)
    simp only [splitn2Colon, if_neg hc, ih hcs]

theorem splitn2Colon_append {p o : Str} (h : ':' ∉ p) :
    splitn2Colon (p ++ ':' :: o) = [p, o] := by
  induction p with
  | nil => simp [splitn2Colon]
  | cons c cs ih =>
    have hc : c ≠ ':' := fun he => h (he ▸ List.mem_cons_self c cs)
    have hcs : ':' ∉ cs := fun hm => h (List.mem_cons_of_mem c hm)
    simp only [List.cons_append, splitn2Colon, if_neg hc, List.append_eq, ih hcs]

/-! ## Claim C6: identifier codec -/

/-- C6: decoding the encoded identifier `path:offset` splits on the first
colon and returns exactly `(path, offset)` whenever the path contains no
colon; decoding fails with the invalid-identifier error when the id has
fewer than two parts (no colon at all) or when the offset segment does
not parse as a non-negative integer. -/
theorem C6_identifier_codec :
    (∀ (path : Str) (n : Nat), ':' ∉ path →
      decodeId (encodeId path n) = Except.ok (path, n)) ∧
    (∀ s : Str, ':' ∉ s → decodeId s = Except.error BcErr.invalidId) ∧
    (∀ p o : Str, ':' ∉ p → parseUsize o = none →
      decodeId (p ++ ':' :: o) = Except.error BcErr.invalidId) := by
  refine ⟨?_, ?_, ?_⟩
  · intro path n h
    simp [decodeId, encodeId, splitn2Colon_append h, parseUsize_natToDec]
  · intro s h
    simp [decodeId, splitn2Colon_no_colon h]
  · intro p o h hpo
    simp [decodeId, splitn2Colon_append h, hpo]

/-- Witness for C6 at concrete inputs: a path without a colon round-trips
with offset 42, an id without a colon is rejected, and a non-numeric
offset segment is rejected. -/
theorem C6_identifier_codec_witness :
    decodeId (encodeId "data/2024-01.bean".toList 42) =
        Except.ok ("data/2024-01.bean".toList, 42) ∧
    decodeId "mainbean".toList = Except.error BcErr.invalidId ∧
    decodeId ("data/2024-01.bean".toList ++ ':' :: "12x".toList) =
        Except.error BcErr.invalidId :=
  ⟨C6_identifier_codec.1 _ 42 (by decide),
   C6_identifier_codec.2.1 _ (by decide),
   C6_identifier_codec.2.2 _ _ (by decide) (by decide)⟩

/-! ## Claim C1: account deletion filters by substring, not by exact name -/

/-- C1: refuted on the code — `delete_account` filters lines by substring
containment of `open {name}`, so on an accounts file opening both
`Assets:Bank` and `Assets:BankX`, deleting `Assets:Bank` also removes the
`Assets:BankX` line: the rewritten file is a single newline and no longer
contains `Assets:BankX` anywhere, although the input's second line did. -/
theorem C1_delete_account_also_removes_bankx :
    delete_account_content "Assets:Bank".toList
        "2024-01-01 open Assets:Bank USD\n2024-01-01 open Assets:BankX USD\n".toList
      = ['\n'] ∧
    containsSub "Assets:BankX".toList
        "2024-01-01 open Assets:Bank USD\n2024-01-01 open Assets:BankX USD\n".toList
      = true ∧
    containsSub "Assets:BankX".toList
        (delete_account_content "Assets:Bank".toList
          "2024-01-01 open Assets:Bank USD\n2024-01-01 open Assets:BankX USD\n".toList)
      = false := by
  decide

/-! ## Lemmas about the end-expansion loop -/

theorem expandEndAux_spec (content : Str) (s : Str) :
    ∀ e0 : Nat, content.drop e0 = s → e0 ≤ content.length →
    ∃ e, e0 ≤ e ∧ e ≤ content.length ∧
      (∀ i, e0 ≤ i → i < e → content.get? i ≠ some '\n') ∧
      ((e = content.length ∧ expandEndAux s e0 = e) ∨
       (content.get? e = some '\n' ∧ expandEndAux s e0 = e + 1)) := by
  induction s with
  | nil =>
    intro e0 hdrop hle
    have hlen : content.length - e0 = 0 := by
      have := congrArg List.length hdrop
      simpa [List.length_drop] using this
    have he : e0 = content.length := by omega
    exact ⟨e0, Nat.le_refl _, hle,
      fun i h1 h2 => absurd (Nat.lt_of_le_of_lt h1 h2) (Nat.lt_irrefl _),
      Or.inl ⟨he, rfl⟩⟩
  | cons c rest ih =>
    intro e0 hdrop hle
    have hlen : content.length - e0 = rest.length + 1 := by
      have := congrArg List.length hdrop
      simpa [List.length_drop] using this
    have hlt : e0 < content.length := by omega
    have hget : content.get? e0 = some c := by
      have h0 : (content.drop e0).get? 0 = some c := by rw [hdrop]; rfl
      rw [List.get?_drop] at h0
      simpa using h0
    have hdrop1 : content.drop (e0 + 1) = rest := by
      have h1 : List.drop 1 (content.drop e0) = rest := by rw [hdrop]; rfl
      rw [List.drop_drop] at h1
      exact h1
    by_cases hc : c = '\n'
    · refine ⟨e0, Nat.le_refl _, Nat.le_of_lt hlt,
        fun i h1 h2 => absurd (Nat.lt_of_le_of_lt h1 h2) (Nat.lt_irrefl _),
        Or.inr ⟨by rw [hget, hc], ?_⟩⟩
      simp [expandEndAux, hc]
    · obtain ⟨e, h1, h2, h3, h4⟩ := ih (e0 + 1) hdrop1 (Nat.succ_le_of_lt hlt)
      refine ⟨e, Nat.le_trans (Nat.le_succ _) h1, h2, ?_, ?_⟩
      · intro i hi1 hi2
        rcases Nat.eq_or_lt_of_le hi1 with he | hlt2
        · rw [← he, hget]
          intro hx
          exact hc (Option.some.inj hx)
        · exact h3 i hlt2 hi2
      · have hstep : expandEndAux (c :: rest) e0 = expandEndAux rest (e0 + 1) := by
          simp [expandEndAux, hc]
        rw [hstep]
        exact h4

theorem expandEnd_spec (content : Str) (e0 : Nat) :
    e0 ≤ content.length →
    ∃ e, e0 ≤ e ∧ e ≤ content.length ∧
      (∀ i, e0 ≤ i → i < e → content.get? i ≠ some '\n') ∧
      ((e = content.length ∧ expandEnd content e0 = e) ∨
       (content.get? e = some '\n' ∧ expandEnd content e0 = e + 1)) :=
  expandEndAux_spec content (content.drop e0) e0 rfl

theorem expandEnd_le (content : Str) (e0 : Nat) (h : e0 ≤ content.length) :
    e0 ≤ expandEnd content e0 ∧ expandEnd content e0 ≤ content.length := by
  obtain ⟨e, he1, he2, -, hfin⟩ := expandEnd_spec content e0 h
  rcases hfin with ⟨-, hv⟩ | ⟨hnl, hv⟩
  · rw [hv]
    exact ⟨he1, he2⟩
  · rw [hv]
    have hel : e < content.length := by
      by_contra hge
      rw [List.get?_eq_none.2 (Nat.le_of_not_lt hge)] at hnl
      exact absurd hnl (by simp)
    exact ⟨Nat.le_succ_of_le he1, hel⟩

theorem expandEndFuel_eq_aux (content : Str) (s : Str) :
    ∀ e0 : Nat, content.drop e0 = s → e0 ≤ content.length →
    expandEndFuel content (content.length - e0 + 1) e0 =
      some (expandEndAux s e0) := by
  induction s with
  | nil =>
    intro e0 hdrop hle
    have hlen : content.length - e0 = 0 := by
      have := congrArg List.length hdrop
      simpa [List.length_drop] using this
    have hnlt : ¬ e0 < content.length := by omega
    rw [hlen, expandEndFuel, if_neg hnlt]
    rfl
  | cons c rest ih =>
    intro e0 hdrop hle
    have hlen : content.length - e0 = rest.length + 1 := by
      have := congrArg List.length hdrop
      simpa [List.length_drop] using this
    have hlt : e0 < content.length := by omega
    have hget : content.get? e0 = some c := by
      have h0 : (content.drop e0).get? 0 = some c := by rw [hdrop]; rfl
      rw [List.get?_drop] at h0
      simpa using h0
    have hdrop1 : content.drop (e0 + 1) = rest := by
      have h1 : List.drop 1 (content.drop e0) = rest := by rw [hdrop]; rfl
      rw [List.drop_drop] at h1
      exact h1
    have hk : content.length - e0 + 1 = (content.length - (e0 + 1) + 1) + 1 := by
      omega
    rw [hk, expandEndFuel, if_pos hlt, hget]
    by_cases hc : c = '\n'
    · simp [expandEndAux, hc]
    · simp only [expandEndAux, if_neg hc]
      rw [ih (e0 + 1) hdrop1 (Nat.succ_le_of_lt hlt)]

theorem expandEndFuel_eq (content : Str) (e0 : Nat) :
    e0 ≤ content.length →
    expandEndFuel content (content.length - e0 + 1) e0 =
      some (expandEnd content e0) :=
  expandEndFuel_eq_aux content (content.drop e0) e0 rfl

/-! ## Claim C3: the splice step -/

/-- C3: for every file content and resolved span `[start, e0)` inside it,
the splice step of `delete_transaction` extends the end forward past
non-newline characters up to some position `e`, consumes exactly the one
newline at `e` when one exists before end-of-file (and nothing more), and
produces exactly the bytes before `start` concatenated with the bytes
from the extended end onward — every byte outside the removed range is
unchanged. -/
theorem C3_splice_consumes_one_terminator (content : Str) (start e0 : Nat)
    (_hs : start ≤ e0) (h : e0 ≤ content.length) :
    ∃ e, e0 ≤ e ∧ e ≤ content.length ∧
      (∀ i, e0 ≤ i → i < e → content.get? i ≠ some '\n') ∧
      ((e = content.length ∧
          spliceContent content start e0 = content.take start ++ content.drop e) ∨
       (content.get? e = some '\n' ∧
          spliceContent content start e0 = content.take start ++ content.drop (e + 1))) := by
  obtain ⟨e, h1, h2, h3, h4⟩ := expandEnd_spec content e0 h
  refine ⟨e, h1, h2, h3, ?_⟩
  rcases h4 with ⟨ha, hb⟩ | ⟨ha, hb⟩
  · exact Or.inl ⟨ha, by rw [spliceContent, hb]⟩
  · exact Or.inr ⟨ha, by rw [spliceContent, hb]⟩

/-- Witness for C3 at a concrete file: content `abc\ndef` with span
`[0, 2)`. -/
theorem C3_splice_consumes_one_terminator_witness :
    ∃ e, 2 ≤ e ∧ e ≤ ("abc\ndef".toList).length ∧
      (∀ i, 2 ≤ i → i < e → ("abc\ndef".toList).get? i ≠ some '\n') ∧
      ((e = ("abc\ndef".toList).length ∧
          spliceContent "abc\ndef".toList 0 2 =
            ("abc\ndef".toList).take 0 ++ ("abc\ndef".toList).drop e) ∨
       (("abc\ndef".toList).get? e = some '\n' ∧
          spliceContent "abc\ndef".toList 0 2 =
            ("abc\ndef".toList).take 0 ++ ("abc\ndef".toList).drop (e + 1))) :=
  C3_splice_consumes_one_terminator "abc\ndef".toList 0 2 (by decide) (by decide)

/-! ## Claim C10: totality and in-bounds accesses of the expansion loop -/

/-- C10: for ASCII content (one character per byte, so every position is a
character boundary in the model) and a span end within the content, the
end-expansion loop of `delete_transaction` is total: a step budget of
`length - end + 1` suffices — the explicit-budget model returns a result
rather than `none`, so the loop neither diverges nor performs an
out-of-bounds single-character slice — and the resulting end stays
bounded by the content length. -/
theorem C10_expand_loop_total (content : Str) (e0 : Nat)
    (h : e0 ≤ content.length) :
    expandEndFuel content (content.length - e0 + 1) e0 =
        some (expandEnd content e0) ∧
    e0 ≤ expandEnd content e0 ∧ expandEnd content e0 ≤ content.length :=
  ⟨expandEndFuel_eq content e0 h, (expandEnd_le content e0 h).1,
    (expandEnd_le content e0 h).2⟩

/-- Witness for C10 at a concrete file: content `ab\ncd` from position 0. -/
theorem C10_expand_loop_total_witness :
    expandEndFuel "ab\ncd".toList (("ab\ncd".toList).length - 0 + 1) 0 =
        some (expandEnd "ab\ncd".toList 0) ∧
    0 ≤ expandEnd "ab\ncd".toList 0 ∧
    expandEnd "ab\ncd".toList 0 ≤ ("ab\ncd".toList).length :=
  C10_expand_loop_total "ab\ncd".toList 0 (by decide)

/-! ## Lemmas about span resolution -/

/-- The token ends a posting contributes to the resolver's maximum. -/
def postingCands (p : ParsedPosting) : List Nat :=
  p.accountSpan.stop ::
    (match p.amountSpan with
     | some a => [a.stop]
     | none => [])

/-- All token ends the claim lists for the resolved span's end: the
date-token end, the narration end when present, and every posting's
account-token end and amount-token end when present. -/
def endCandidates (t : ParsedTxn) : List Nat :=
  t.dateSpan.stop ::
    ((match t.narrationSpan with
      | some n => [n.stop]
      | none => []) ++ t.postings.flatMap postingCands)

/-- One fold step of the resolver over a posting. -/
def resolveStep (e : Nat) (p : ParsedPosting) : Nat :=
  match p.amountSpan with
  | some a => max (max e p.accountSpan.stop) a.stop
  | none => max e p.accountSpan.stop

theorem resolveEnd_eq_foldl (t : ParsedTxn) :
    resolveEnd t = t.postings.foldl resolveStep
      (match t.narrationSpan with
       | some n => max t.dateSpan.stop n.stop
       | none => t.dateSpan.stop) := by
  unfold resolveEnd resolveStep
  rfl

theorem le_resolveStep (e : Nat) (p : ParsedPosting) : e ≤ resolveStep e p := by
  unfold resolveStep
  cases p.amountSpan with
  | none => exact Nat.le_max_left _ _
  | some a => exact Nat.le_trans (Nat.le_max_left _ _) (Nat.le_max_left _ _)

theorem foldl_resolveStep_ge_init (ps : List ParsedPosting) :
    ∀ a, a ≤ ps.foldl resolveStep a := by
  induction ps with
  | nil => intro a; exact Nat.le_refl a
  | cons p ps ih =>
    intro a
    exact Nat.le_trans (le_resolveStep a p) (ih (resolveStep a p))

theorem cand_le_resolveStep (e : Nat) (p : ParsedPosting) :
    ∀ x ∈ postingCands p, x ≤ resolveStep e p := by
  intro x hx
  unfold postingCands at hx
  unfold resolveStep
  cases hps : p.amountSpan with
  | none =>
    rw [hps] at hx
    simp at hx
    rw [hx]
    exact Nat.le_max_right _ _
  | some a =>
    rw [hps] at hx
    simp at hx
    rcases hx with hx | hx
    · rw [hx]
      exact Nat.le_trans (Nat.le_max_right _ _) (Nat.le_max_left _ _)
    · rw [hx]
      exact Nat.le_max_right _ _

theorem foldl_resolveStep_ge_cand (ps : List ParsedPosting) :
    ∀ a x, x ∈ ps.flatMap postingCands → x ≤ ps.foldl resolveStep a := by
  induction ps with
  | nil => intro a x hx; simp at hx
  | cons p ps ih =>
    intro a x hx
    simp only [List.flatMap_cons, List.mem_append] at hx
    rcases hx with hx | hx
    · exact Nat.le_trans (cand_le_resolveStep a p x hx)
        (foldl_resolveStep_ge_init ps (resolveStep a p))
    · exact ih (resolveStep a p) x hx

theorem resolveStep_mem (e : Nat) (p : ParsedPosting) :
    resolveStep e p = e ∨ resolveStep e p ∈ postingCands p := by
  cases hps : p.amountSpan with
  | none =>
    simp only [resolveStep, postingCands, hps]
    rcases max_choice e p.accountSpan.stop with h | h
    · exact Or.inl h
    · exact Or.inr (by rw [h]; simp)
  | some a =>
    simp only [resolveStep, postingCands, hps]
    rcases max_choice (max e p.accountSpan.stop) a.stop with h | h
    · rcases max_choice e p.accountSpan.stop with h2 | h2
      · exact Or.inl (by rw [h, h2])
      · refine Or.inr ?_
        rw [h, h2]
        simp
    · exact Or.inr (by rw [h]; simp)

theorem foldl_resolveStep_mem (ps : List ParsedPosting) :
    ∀ a, ps.foldl resolveStep a = a ∨
      ps.foldl resolveStep a ∈ ps.flatMap postingCands := by
  induction ps with
  | nil => intro a; exact Or.inl rfl
  | cons p ps ih =>
    intro a
    simp only [List.foldl_cons, List.flatMap_cons, List.mem_append]
    rcases ih (resolveStep a p) with h | h
    · rw [h]
      rcases resolveStep_mem a p with h2 | h2
      · exact Or.inl h2
      · exact Or.inr (Or.inl h2)
    · exact Or.inr (Or.inr h)

theorem findTarget_start (ds : List Directive) (sb : Nat) (t : ParsedTxn)
    (h : findTarget ds sb = some t) : t.dateSpan.start = sb := by
  induction ds with
  | nil => exact absurd h (by simp [findTarget])
  | cons d ds ih =>
    cases d with
    | txn t2 =>
      unfold findTarget at h
      by_cases h2 : t2.dateSpan.start = sb
      · rw [if_pos h2] at h
        injection h with h
        rw [← h]
        exact h2
      · rw [if_neg h2] at h
        exact ih h
    | other => exact ih h

/-! ## Claim C5: the resolved span -/

/-- C5: when `delete_transaction` resolves a target by its start offset,
the matched transaction's date token starts exactly at the requested
offset, and the resolved end is the maximum of the claim's candidate
token ends — it is one of them, and no candidate exceeds it. -/
theorem C5_resolved_span (ds : List Directive) (sb : Nat) (t : ParsedTxn)
    (h : findTarget ds sb = some t) :
    t.dateSpan.start = sb ∧
    resolveEnd t ∈ endCandidates t ∧
    (∀ x ∈ endCandidates t, x ≤ resolveEnd t) := by
  have hinit := resolveEnd_eq_foldl t
  cases hn : t.narrationSpan with
  | none =>
    rw [hn] at hinit
    refine ⟨findTarget_start ds sb t h, ?_, ?_⟩
    · rw [hinit]
      rcases foldl_resolveStep_mem t.postings t.dateSpan.stop with h2 | h2
      · rw [h2]
        simp [endCandidates]
      · simp only [endCandidates, hn, List.nil_append, List.mem_cons]
        exact Or.inr h2
    · intro x hx
      simp only [endCandidates, hn, List.nil_append, List.mem_cons] at hx
      rcases hx with hx | hx
      · rw [hx, hinit]
        exact foldl_resolveStep_ge_init _ _
      · rw [hinit]
        exact foldl_resolveStep_ge_cand _ _ _ hx
  | some n =>
    rw [hn] at hinit
    refine ⟨findTarget_start ds sb t h, ?_, ?_⟩
    · rw [hinit]
      rcases foldl_resolveStep_mem t.postings (max t.dateSpan.stop n.stop) with h2 | h2
      · rw [h2]
        rcases max_choice t.dateSpan.stop n.stop with h3 | h3
        · rw [h3]
          simp [endCandidates]
        · rw [h3]
          simp [endCandidates, hn]
      · simp only [endCandidates, hn, List.singleton_append, List.mem_cons]
        exact Or.inr (Or.inr h2)
    · intro x hx
      simp only [endCandidates, hn, List.singleton_append, List.mem_cons] at hx
      rcases hx with hx | hx | hx
      · rw [hx, hinit]
        exact Nat.le_trans (Nat.le_max_left _ _) (foldl_resolveStep_ge_init _ _)
      · rw [hx, hinit]
        exact Nat.le_trans (Nat.le_max_right _ _) (foldl_resolveStep_ge_init _ _)
      · rw [hinit]
        exact foldl_resolveStep_ge_cand _ _ _ hx

/-- A concrete parsed transaction used by the C5 witness: one entry with
two postings, the second with no amount token. -/
def c5SampleTxn : ParsedTxn :=
  { dateStr := "2024-01-15".toList
    dateSpan := ⟨1, 11⟩
    flag := "*".toList
    payee := some "Shop".toList
    narration := some "Lunch".toList
    narrationSpan := some ⟨21, 28⟩
    postings :=
      [{ account := "Assets:Cash".toList
         accountSpan := ⟨31, 42⟩
         amount := some "10.50".toList
         amountSpan := some ⟨43, 48⟩
         currency := some "USD".toList },
       { account := "Expenses:Food".toList
         accountSpan := ⟨55, 68⟩
         amount := none
         amountSpan := none
         currency := none }] }

/-- Witness for C5: resolving the sample directive list at offset 1. -/
theorem C5_resolved_span_witness :
    c5SampleTxn.dateSpan.start = 1 ∧
    resolveEnd c5SampleTxn ∈ endCandidates c5SampleTxn ∧
    (∀ x ∈ endCandidates c5SampleTxn, x ≤ resolveEnd c5SampleTxn) :=
  C5_resolved_span [Directive.txn c5SampleTxn] 1 c5SampleTxn (by decide)

/-! ## Claim C7: the not-found path of delete_transaction -/

/-- The date-token start offset of a directive, `none` for non-transaction
variants. -/
def dirTxnStart : Directive → Option Nat
  | Directive.txn t => some t.dateSpan.start
  | Directive.other => none

theorem findTarget_none (ds : List Directive) (sb : Nat)
    (h : ∀ d ∈ ds, dirTxnStart d ≠ some sb) :
    findTarget ds sb = none := by
  induction ds with
  | nil => rfl
  | cons d ds ih =>
    cases d with
    | txn t =>
      have hne : t.dateSpan.start ≠ sb := by
        intro he
        exact h (Directive.txn t) (List.mem_cons_self _ _) (by rw [dirTxnStart, he])
      unfold findTarget
      rw [if_neg hne]
      exact ih (fun d2 hm => h d2 (List.mem_cons_of_mem _ hm))
    | other =>
      unfold findTarget
      exact ih (fun d2 hm => h d2 (List.mem_cons_of_mem _ hm))

/-- C7: when the identifier decodes to a path and offset, the file exists,
and no transaction directive of the parsed content starts at that offset,
`delete_transaction` returns the not-found error and leaves the file
system completely unchanged — no write happens on this path. -/
theorem C7_delete_not_found (P : Str → List Directive) (dir : Dir) (id : Str)
    (path : Str) (sb : Nat) (content : Str)
    (hdec : decodeId id = Except.ok (path, sb))
    (hread : fsRead dir path = some content)
    (hnone : ∀ d ∈ P content, dirTxnStart d ≠ some sb) :
    delete_transaction P dir id = (some BcErr.notFound, dir) := by
  simp only [delete_transaction, hdec, hread, findTarget_none (P content) sb hnone]

/-- Witness for C7: a ledger file whose only transaction starts at offset
1, while the identifier asks for offset 99. -/
theorem C7_delete_not_found_witness :
    delete_transaction parseLedger
        [("data/2024-01.bean".toList,
          "\n2024-01-15 * \"a\" \"b\"\n  Assets:Cash 10 USD\n".toList)]
        "data/2024-01.bean:99".toList
      = (some BcErr.notFound,
         [("data/2024-01.bean".toList,
           "\n2024-01-15 * \"a\" \"b\"\n  Assets:Cash 10 USD\n".toList)]) :=
  C7_delete_not_found parseLedger _ _ "data/2024-01.bean".toList 99
    "\n2024-01-15 * \"a\" \"b\"\n  Assets:Cash 10 USD\n".toList
    (by rfl) (by rfl) (by decide)

/-! ## Claim C4: update is delete-then-add, and it is not atomic -/

/-- C4: `update_transaction` produces exactly the end state of the spec's
sequence — `delete_transaction(id)` followed by `add_transaction(T')` on
the ledger directory the update writes to (`data`, hard-coded in the
source) — and it is not atomic: whenever the delete step succeeds and the
synthesis step then fails (an unparsable date), the update surfaces the
synthesis error while the file system stays in the post-delete state, so
the original entry is deleted with no replacement written. -/
theorem C4_update_equals_delete_then_add (P : Str → List Directive)
    (dir : Dir) (id : Str) (tx : Transaction) :
    update_transaction P dir id tx = specDeleteThenAdd P dir id tx ∧
    ((delete_transaction P dir id).1 = none →
      chronoParseYMD tx.date = none →
      update_transaction P dir id tx =
        (some BcErr.invalidDate, (delete_transaction P dir id).2)) := by
  constructor
  · unfold update_transaction specDeleteThenAdd
    rcases h : delete_transaction P dir id with ⟨r, d1⟩
    cases r <;> simp
  · intro hdel hadd
    unfold update_transaction
    rcases h : delete_transaction P dir id with ⟨r, d1⟩
    rw [h] at hdel
    simp only at hdel
    subst hdel
    simp only [add_transaction, hadd, h]

/-- Witness for C4's non-atomicity at a concrete ledger: the delete of the
only entry succeeds, the replacement's date `bad` fails to parse, and the
end state is the post-delete file system with nothing added. -/
theorem C4_update_equals_delete_then_add_witness :
    update_transaction parseLedger
        [("data/2024-01.bean".toList,
          "\n2024-01-15 * \"a\" \"b\"\n  Assets:Cash 10 USD\n".toList)]
        "data/2024-01.bean:1".toList
        { id := none, date := "bad".toList, flag := "*".toList,
          payee := none, narration := none, tags := [], postings := [] } =
      (some BcErr.invalidDate,
        (delete_transaction parseLedger
          [("data/2024-01.bean".toList,
            "\n2024-01-15 * \"a\" \"b\"\n  Assets:Cash 10 USD\n".toList)]
          "data/2024-01.bean:1".toList).2) :=
  (C4_update_equals_delete_then_add parseLedger _ _ _).2 (by decide) (by decide)

/-! ## Lemmas about the file-system model -/

theorem fsRead_fsWrite_self (dir : Dir) (p c : Str) :
    fsRead (fsWrite dir p c) p = some c := by
  induction dir with
  | nil => simp [fsWrite, fsRead]
  | cons qd rest ih =>
    rcases qd with ⟨q, d⟩
    by_cases h : q = p
    · simp [fsWrite, fsRead, h]
    · simp [fsWrite, fsRead, h, ih]

theorem fsRead_fsWrite_ne (dir : Dir) (p c q : Str) (h : q ≠ p) :
    fsRead (fsWrite dir p c) q = fsRead dir q := by
  have h2 : p ≠ q := Ne.symm h
  induction dir with
  | nil => simp [fsWrite, fsRead, h2]
  | cons rd rest ih =>
    rcases rd with ⟨r, d⟩
    by_cases h3 : r = p
    · subst h3
      simp [fsWrite, fsRead, h2]
    · simp [fsWrite, fsRead, h3, ih]

theorem fsRead_fsAppend_self (dir : Dir) (p t : Str) :
    fsRead (fsAppend dir p t) p = some ((fsRead dir p).getD [] ++ t) := by
  unfold fsAppend
  cases h : fsRead dir p with
  | some c => simp [fsRead_fsWrite_self]
  | none => simp [fsRead_fsWrite_self]

theorem fsRead_fsAppend_ne (dir : Dir) (p t q : Str) (h : q ≠ p) :
    fsRead (fsAppend dir p t) q = fsRead dir q := by
  unfold fsAppend
  cases fsRead dir p with
  | some c => exact fsRead_fsWrite_ne dir p _ q h
  | none => exact fsRead_fsWrite_ne dir p _ q h

theorem pathJoin_right_inj (d f g : Str) (h : pathJoin d f = pathJoin d g) :
    f = g := by
  unfold pathJoin at h
  have := List.append_cancel_left h
  injection this

/-! ## Lemmas about splitting on a separator -/

theorem splitCh_ne_nil (sep : Char) (s : Str) : splitCh sep s ≠ [] := by
  induction s with
  | nil => simp [splitCh]
  | cons c rest ih =>
    by_cases h : c = sep
    · simp [splitCh, h]
    · simp only [splitCh, if_neg h]
      cases hs : splitCh sep rest with
      | nil => simp
      | cons s ss => simp

theorem splitCh_append_sep (sep : Char) (a b : Str) :
    splitCh sep (a ++ sep :: b) = splitCh sep a ++ splitCh sep b := by
  induction a with
  | nil => simp [splitCh]
  | cons c a ih =>
    by_cases h : c = sep
    · simp [splitCh, h, ih]
    · simp only [List.cons_append, splitCh, if_neg h, List.append_eq, ih]
      cases hs : splitCh sep a with
      | nil => exact absurd hs (splitCh_ne_nil sep a)
      | cons s ss => simp

theorem splitCh_no_sep (sep : Char) (s : Str) (h : sep ∉ s) :
    splitCh sep s = [s] := by
  induction s with
  | nil => rfl
  | cons c rest ih =>
    have hc : c ≠ sep := fun he => h (he ▸ List.mem_cons_self c rest)
    have hr : sep ∉ rest := fun hm => h (List.mem_cons_of_mem c hm)
    simp only [splitCh, if_neg hc, ih hr]

theorem splitCh_head_prefix (sep : Char) (s : Str) :
    ∀ seg segs, splitCh sep s = seg :: segs → ∃ v, s = seg ++ v := by
  induction s with
  | nil =>
    intro seg segs h
    simp [splitCh] at h
    exact ⟨[], by simp [h.1]⟩
  | cons c rest ih =>
    intro seg segs h
    by_cases hc : c = sep
    · simp only [splitCh, if_pos hc] at h
      injection h with h1 _
      exact ⟨c :: rest, by simp [← h1]⟩
    · simp only [splitCh, if_neg hc] at h
      cases hs : splitCh sep rest with
      | nil => exact absurd hs (splitCh_ne_nil sep rest)
      | cons s2 ss2 =>
        rw [hs] at h
        injection h with h1 _
        obtain ⟨v, hv⟩ := ih s2 ss2 hs
        exact ⟨v, by rw [← h1, hv]; simp⟩

theorem splitCh_seg_infix (sep : Char) (s : Str) :
    ∀ seg, seg ∈ splitCh sep s → ∃ u v, s = u ++ seg ++ v := by
  induction s with
  | nil =>
    intro seg h
    simp [splitCh] at h
    exact ⟨[], [], by simp [h]⟩
  | cons c rest ih =>
    intro seg h
    by_cases hc : c = sep
    · simp only [splitCh, if_pos hc, List.mem_cons] at h
      rcases h with h | h
      · exact ⟨[], c :: rest, by simp [h]⟩
      · obtain ⟨u, v, huv⟩ := ih seg h
        exact ⟨c :: u, v, by rw [huv]; simp⟩
    · simp only [splitCh, if_neg hc] at h
      cases hs : splitCh sep rest with
      | nil => exact absurd hs (splitCh_ne_nil sep rest)
      | cons s2 ss2 =>
        rw [hs] at h
        simp only [List.mem_cons] at h
        rcases h with h | h
        · obtain ⟨v, hv⟩ := splitCh_head_prefix sep rest s2 ss2 hs
          exact ⟨[], v, by rw [h, hv]; simp⟩
        · obtain ⟨u, v, huv⟩ := ih seg (hs ▸ List.mem_cons_of_mem s2 h)
          exact ⟨c :: u, v, by rw [huv]; simp⟩

/-! ## Lemmas about substring containment -/

theorem containsSub_of_eq_append (pat u v l : Str) (h : l = u ++ pat ++ v) :
    containsSub pat l = true := by
  subst h
  induction u with
  | nil =>
    cases hpv : pat ++ v with
    | nil =>
      rcases List.append_eq_nil.1 hpv with ⟨h1, h2⟩
      subst h1
      subst h2
      decide
    | cons c rest =>
      rw [List.nil_append, hpv, containsSub, ← hpv]
      have hpre : pat.isPrefixOf (pat ++ v) = true := by
        rw [List.isPrefixOf_iff_prefix]
        exact ⟨v, rfl⟩
      simp [hpre]
  | cons c u ih =>
    rw [List.cons_append, List.cons_append, containsSub]
    simp only [← List.append_assoc] at ih
    rw [ih]
    simp

/-! ## Claim C8: the root file never accumulates duplicate includes -/

theorem includeLine_ne_nil (f : Str) : includeLine f ≠ [] := by
  simp [includeLine]

theorem nl_not_mem_includeLine (f : Str) (h : '\n' ∉ f) :
    '\n' ∉ includeLine f := by
  unfold includeLine
  intro hm
  rw [List.append_assoc, List.mem_append, List.mem_append] at hm
  rcases hm with hm | hm | hm
  · exact absurd hm (by decide)
  · exact h hm
  · exact absurd hm (by decide)

/-- Number of full lines of a root-file content equal to the include line
of a period file. -/
def includeCount (f main : Str) : Nat :=
  (splitCh '\n' main).count (includeLine f)

theorem updateMain_count (f main : Str) (hnl : '\n' ∉ f)
    (h : includeCount f main ≤ 1) :
    includeCount f (updateMain f main) ≤ 1 := by
  unfold includeCount updateMain
  by_cases hc : containsSub (includeLine f) main = true
  · rw [if_pos hc]
    exact h
  · rw [if_neg hc]
    have h0 : (splitCh '\n' main).count (includeLine f) = 0 := by
      by_contra hne
      have hmem : includeLine f ∈ splitCh '\n' main := by
        have hpos : 0 < (splitCh '\n' main).count (includeLine f) :=
          Nat.pos_of_ne_zero hne
        exact List.count_pos_iff_mem.1 hpos
      obtain ⟨u, v, huv⟩ := splitCh_seg_infix '\n' main _ hmem
      exact hc (containsSub_of_eq_append _ u v main huv)
    have hshape : main ++ '\n' :: includeLine f ++ ['\n'] =
        (main ++ '\n' :: includeLine f) ++ '\n' :: ([] : Str) := by
      simp
    rw [hshape, splitCh_append_sep, splitCh_append_sep,
      splitCh_no_sep '\n' (includeLine f) (nl_not_mem_includeLine f hnl),
      List.count_append, List.count_append, h0]
    simp [splitCh, List.count_cons, includeLine_ne_nil f]

/-- Fold a sequence of `add_transaction` calls over the file system,
keeping the state of failed calls (which leave it unchanged). -/
def addAll (dataDir : Str) (txs : List Transaction) (dir : Dir) : Dir :=
  txs.foldl (fun d tx => (add_transaction dataDir d tx).2) dir

/-- The root-file content of a ledger directory. -/
def mainContent (dataDir : Str) (dir : Dir) : Str :=
  (fsRead dir (pathJoin dataDir "main.bean".toList)).getD []

theorem add_transaction_main (dataDir : Str) (dir : Dir) (tx : Transaction)
    (y m d : Nat) (hp : chronoParseYMD tx.date = some (y, m, d))
    (hm : periodFilename y m ≠ "main.bean".toList) :
    mainContent dataDir (add_transaction dataDir dir tx).2 =
      updateMain (periodFilename y m) (mainContent dataDir dir) := by
  have hne : pathJoin dataDir "main.bean".toList ≠
      pathJoin dataDir (periodFilename y m) :=
    fun he => hm (pathJoin_right_inj dataDir _ _ he).symm
  have h1 : fsRead (fsAppend dir (pathJoin dataDir (periodFilename y m))
        (renderTxn tx)) (pathJoin dataDir "main.bean".toList) =
      fsRead dir (pathJoin dataDir "main.bean".toList) :=
    fsRead_fsAppend_ne _ _ _ _ hne
  simp only [add_transaction, hp]
  by_cases hc : containsSub (includeLine (periodFilename y m))
      ((fsRead (fsAppend dir (pathJoin dataDir (periodFilename y m))
          (renderTxn tx)) (pathJoin dataDir "main.bean".toList)).getD []) = true
  · rw [if_pos hc]
    rw [h1] at hc
    simp only [mainContent, updateMain]
    rw [h1, if_pos hc]
  · rw [if_neg hc]
    rw [h1] at hc
    simp only [mainContent, updateMain]
    rw [fsRead_fsAppend_self, h1, if_neg hc]
    simp

theorem add_transaction_main_invalid (dataDir : Str) (dir : Dir)
    (tx : Transaction) (hp : chronoParseYMD tx.date = none) :
    (add_transaction dataDir dir tx).2 = dir := by
  simp [add_transaction, hp]

/-- C8: for every sequence of `add_transaction` calls whose transactions
all land in the same period file, if the root file starts with at most
one full line equal to that period file's include directive, it still has
at most one after the whole sequence — the include line is appended only
when absent, so duplicates never accumulate. -/
theorem C8_no_duplicate_include (dataDir f : Str) (txs : List Transaction)
    (dir : Dir) (hnl : '\n' ∉ f) (hmb : f ≠ "main.bean".toList)
    (hsame : ∀ tx ∈ txs, ∀ y m d, chronoParseYMD tx.date = some (y, m, d) →
      periodFilename y m = f)
    (hinv : includeCount f (mainContent dataDir dir) ≤ 1) :
    includeCount f (mainContent dataDir (addAll dataDir txs dir)) ≤ 1 := by
  induction txs generalizing dir with
  | nil => exact hinv
  | cons tx txs ih =>
    have hstep : includeCount f
        (mainContent dataDir (add_transaction dataDir dir tx).2) ≤ 1 := by
      cases hp : chronoParseYMD tx.date with
      | none => rw [add_transaction_main_invalid dataDir dir tx hp]; exact hinv
      | some ymd =>
        rcases ymd with ⟨y, m, d⟩
        have hf : periodFilename y m = f :=
          hsame tx (List.mem_cons_self _ _) y m d hp
        rw [add_transaction_main dataDir dir tx y m d hp (hf ▸ hmb), hf]
        exact updateMain_count f _ hnl hinv
    exact ih _ (fun tx2 hm2 => hsame tx2 (List.mem_cons_of_mem _ hm2)) hstep

/-- Witness for C8: three adds of the same January 2024 transaction into
an empty ledger directory leave a single include line in the root file. -/
theorem C8_no_duplicate_include_witness :
    includeCount "2024-01.bean".toList
      (mainContent "data".toList
        (addAll "data".toList
          (List.replicate 3
            { id := none, date := "2024-01-15".toList, flag := "*".toList,
              payee := some "Shop".toList, narration := some "Lunch".toList,
              tags := [], postings := [] })
          [])) ≤ 1 :=
  C8_no_duplicate_include "data".toList "2024-01.bean".toList _ []
    (by decide) (by decide)
    (by
      intro tx htx y m d hp
      have he := List.eq_of_mem_replicate htx
      subst he
      have h2 : chronoParseYMD "2024-01-15".toList = some (2024, 1, 15) := by
        decide
      rw [h2] at hp
      injection hp with hp2
      have hy : (2024 : Nat) = y := congrArg Prod.fst hp2
      have hm3 : (1 : Nat) = m := congrArg (fun p => p.2.1) hp2
      subst hy
      subst hm3
      decide)
    (by decide)

/-! ## Claim C9: listing is sorted descending and walks only period files -/

theorem strLe_cons_iff (x y : Char) (as bs : Str) :
    strLe (x :: as) (y :: bs) = true ↔
      (x < y ∨ (x = y ∧ strLe as bs = true)) := by
  simp only [strLe]
  by_cases h1 : x < y
  · simp [h1]
  · by_cases h2 : y < x
    · have hne : x ≠ y := (ne_of_lt h2).symm
      simp [h1, h2, hne]
    · have hxy : x = y := le_antisymm (not_lt.1 h2) (not_lt.1 h1)
      simp [h1, h2, hxy]

theorem strLe_trans : ∀ a b c : Str, strLe a b = true → strLe b c = true →
    strLe a c = true := by
  intro a
  induction a with
  | nil => intro b c _ _; rfl
  | cons x as ih =>
    intro b c hab hbc
    cases b with
    | nil => simp [strLe] at hab
    | cons y bs =>
      cases c with
      | nil => simp [strLe] at hbc
      | cons z cs =>
        rw [strLe_cons_iff] at hab hbc ⊢
        rcases hab with h1 | ⟨h1, hab2⟩
        · rcases hbc with h2 | ⟨h2, hbc2⟩
          · exact Or.inl (lt_trans h1 h2)
          · exact Or.inl (h2 ▸ h1)
        · rcases hbc with h2 | ⟨h2, hbc2⟩
          · exact Or.inl (h1 ▸ h2)
          · exact Or.inr ⟨h1.trans h2, ih bs cs hab2 hbc2⟩

theorem strLe_total : ∀ a b : Str, (strLe a b || strLe b a) = true := by
  intro a
  induction a with
  | nil => intro b; rfl
  | cons x as ih =>
    intro b
    cases b with
    | nil => rfl
    | cons y bs =>
      rcases lt_trichotomy x y with h | h | h
      · have : strLe (x :: as) (y :: bs) = true :=
          (strLe_cons_iff x y as bs).2 (Or.inl h)
        simp [this]
      · subst h
        rcases Bool.or_eq_true_iff.1 (ih bs) with h2 | h2
        · simp [(strLe_cons_iff x x as bs).2 (Or.inr ⟨rfl, h2⟩)]
        · simp [(strLe_cons_iff x x bs as).2 (Or.inr ⟨rfl, h2⟩)]
      · have : strLe (y :: bs) (x :: as) = true :=
          (strLe_cons_iff y x bs as).2 (Or.inl h)
        simp [this]

theorem txnLe_trans : ∀ a b c : Transaction, txnLe a b = true →
    txnLe b c = true → txnLe a c = true :=
  fun _ _ _ hab hbc => strLe_trans _ _ _ hbc hab

theorem txnLe_total : ∀ a b : Transaction, (txnLe a b || txnLe b a) = true :=
  fun a b => Bool.or_comm .. ▸ strLe_total a.date b.date

/-- C9: the list `list_transactions` returns is pairwise sorted descending
by date (each entry's date is lexicographically at least every later
one's), it is a permutation of the concatenated parses of exactly the
files the depth-1 walk admits, and an entry is listed precisely when some
directory entry passing the walk filter (direct child with the `bean`
extension, not `main.bean`) contains it. -/
theorem C9_list_transactions_sorted (P : Str → List Directive)
    (dataDir : Str) (dir : Dir) :
    List.Pairwise (fun a b => txnLe a b = true)
      (list_transactions P dataDir dir) ∧
    (list_transactions P dataDir dir).Perm
      (dir.flatMap (fun pc =>
        match walkName dataDir pc.1 with
        | some _ => parse_file_transactions P pc.1 pc.2
        | none => [])) ∧
    (∀ tx, tx ∈ list_transactions P dataDir dir ↔
      ∃ pc ∈ dir, (walkName dataDir pc.1).isSome = true ∧
        tx ∈ parse_file_transactions P pc.1 pc.2) := by
  refine ⟨List.sorted_mergeSort txnLe_trans txnLe_total _,
    List.mergeSort_perm _ _, ?_⟩
  intro tx
  rw [list_transactions, (List.mergeSort_perm _ txnLe).mem_iff, List.mem_flatMap]
  constructor
  · rintro ⟨pc, hpc, hmem⟩
    refine ⟨pc, hpc, ?_⟩
    cases hw : walkName dataDir pc.1 with
    | none =>
      rw [hw] at hmem
      exact absurd hmem (List.not_mem_nil tx)
    | some name =>
      rw [hw] at hmem
      exact ⟨by simp, by simpa using hmem⟩
  · rintro ⟨pc, hpc, hsome, hmem⟩
    refine ⟨pc, hpc, ?_⟩
    cases hw : walkName dataDir pc.1 with
    | none =>
      rw [hw] at hsome
      exact absurd hsome (by simp)
    | some name => simpa using hmem

/-! ## Equations for the line-grouping parser -/

theorem groupTxnsF_stable : ∀ f1 f2 ls, ls.length < f1 → ls.length < f2 →
    groupTxnsF f1 ls = groupTxnsF f2 ls := by
  intro f1
  induction f1 with
  | zero => intro f2 ls h1; exact absurd h1 (Nat.not_lt_zero _)
  | succ f1 ih =>
    intro f2 ls h1 h2
    obtain ⟨f2p, rfl⟩ : ∃ k, f2 = k + 1 := ⟨f2 - 1, by omega⟩
    cases ls with
    | nil => rfl
    | cons ol rest =>
      rcases ol with ⟨off, l⟩
      simp only [List.length_cons] at h1 h2
      by_cases hs : startsTxn l
      · simp only [groupTxnsF, hs, if_true]
        have hd : (rest.dropWhile (fun p => isPostingLine p.2)).length ≤
            rest.length := (List.dropWhile_sublist _).length_le
        rw [ih f2p _ (by omega) (by omega)]
      · simp only [groupTxnsF, hs, if_false]
        exact ih f2p rest (by omega) (by omega)

theorem groupTxns_nil : groupTxns [] = [] := rfl

theorem groupTxns_cons (off : Nat) (l : Str) (rest : List (Nat × Str)) :
    groupTxns ((off, l) :: rest) =
      if startsTxn l then
        parseHeaderLine off l (rest.takeWhile (fun p => isPostingLine p.2))
          :: groupTxns (rest.dropWhile (fun p => isPostingLine p.2))
      else groupTxns rest := by
  have hd : (rest.dropWhile (fun p => isPostingLine p.2)).length ≤
      rest.length := (List.dropWhile_sublist _).length_le
  by_cases hs : startsTxn l
  · rw [if_pos hs]
    unfold groupTxns
    simp only [List.length_cons, groupTxnsF]
    rw [if_pos hs]
    congr 1
    exact groupTxnsF_stable (rest.length + 1)
      ((rest.dropWhile (fun p => isPostingLine p.2)).length + 1) _
      (by omega) (by omega)
  · rw [if_neg hs]
    unfold groupTxns
    simp only [List.length_cons, groupTxnsF]
    rw [if_neg hs]

/-! ## takeWhile and dropWhile over appended line lists -/

theorem takeWhile_append_stop {α : Type} (p : α → Bool) (A B : List α)
    (hB : ∀ b0, B.head? = some b0 → p b0 = false) :
    (A ++ B).takeWhile p = A.takeWhile p := by
  induction A with
  | nil =>
    cases B with
    | nil => rfl
    | cons b B2 => simp [List.takeWhile_cons, hB b rfl]
  | cons a A2 ih =>
    simp only [List.cons_append, List.takeWhile_cons]
    cases hpa : p a <;> simp [ih]

theorem dropWhile_append_stop {α : Type} (p : α → Bool) (A B : List α)
    (hB : ∀ b0, B.head? = some b0 → p b0 = false) :
    (A ++ B).dropWhile p = A.dropWhile p ++ B := by
  induction A with
  | nil =>
    cases B with
    | nil => rfl
    | cons b B2 => simp [List.dropWhile_cons, hB b rfl]
  | cons a A2 ih =>
    simp only [List.cons_append, List.dropWhile_cons]
    cases hpa : p a <;> simp [ih]

theorem takeWhile_all_append {α : Type} (p : α → Bool) (A B : List α)
    (hA : ∀ a ∈ A, p a = true) :
    (A ++ B).takeWhile p = A ++ B.takeWhile p := by
  induction A with
  | nil => rfl
  | cons a A2 ih =>
    simp only [List.cons_append, List.takeWhile_cons,
      hA a (List.mem_cons_self _ _)]
    simp [ih (fun a2 h2 => hA a2 (List.mem_cons_of_mem _ h2))]

theorem dropWhile_all_append {α : Type} (p : α → Bool) (A B : List α)
    (hA : ∀ a ∈ A, p a = true) :
    (A ++ B).dropWhile p = B.dropWhile p := by
  induction A with
  | nil => rfl
  | cons a A2 ih =>
    simp only [List.cons_append, List.dropWhile_cons,
      hA a (List.mem_cons_self _ _)]
    simp [ih (fun a2 h2 => hA a2 (List.mem_cons_of_mem _ h2))]

/-! ## Grouping of appended line lists -/

theorem groupTxns_append_aux : ∀ (n : Nat) (A B : List (Nat × Str)),
    A.length ≤ n →
    (∀ b0, B.head? = some b0 → isPostingLine b0.2 = false) →
    groupTxns (A ++ B) = groupTxns A ++ groupTxns B := by
  intro n
  induction n with
  | zero =>
    intro A B hA hB
    have hnil : A = [] := List.length_eq_zero.1 (Nat.le_zero.1 hA)
    subst hnil
    simp [groupTxns_nil]
  | succ n ih =>
    intro A B hA hB
    cases A with
    | nil => simp [groupTxns_nil]
    | cons ol A2 =>
      rcases ol with ⟨off, l⟩
      rw [List.cons_append, groupTxns_cons, groupTxns_cons]
      simp only [List.length_cons] at hA
      by_cases hs : startsTxn l
      · rw [if_pos hs, if_pos hs,
          takeWhile_append_stop _ A2 B hB, dropWhile_append_stop _ A2 B hB]
        have hd : (A2.dropWhile (fun p => isPostingLine p.2)).length ≤
            A2.length := (List.dropWhile_sublist _).length_le
        rw [ih _ B (by omega) hB, List.cons_append]
      · rw [if_neg hs, if_neg hs]
        exact ih A2 B (by omega) hB

theorem groupTxns_append (A B : List (Nat × Str))
    (hB : ∀ b0, B.head? = some b0 → isPostingLine b0.2 = false) :
    groupTxns (A ++ B) = groupTxns A ++ groupTxns B :=
  groupTxns_append_aux A.length A B (Nat.le_refl _) hB

/-! ## Offset-annotated line splitting of appended texts -/

theorem splitNlOff_ne_nil (off : Nat) (s : Str) : splitNlOff off s ≠ [] := by
  induction s generalizing off with
  | nil => simp [splitNlOff]
  | cons c rest ih =>
    by_cases hc : c = '\n'
    · simp [splitNlOff, hc]
    · simp only [splitNlOff, if_neg hc]
      cases hs : splitNlOff (off + 1) rest with
      | nil => simp
      | cons s2 ss2 =>
        rcases s2 with ⟨o2, l2⟩
        simp

theorem splitNlOff_append_sep (a : Str) : ∀ (off : Nat) (b : Str),
    splitNlOff off (a ++ '\n' :: b) =
      splitNlOff off a ++ splitNlOff (off + a.length + 1) b := by
  induction a with
  | nil => intro off b; simp [splitNlOff]
  | cons c a2 ih =>
    intro off b
    have harg : off + 1 + a2.length + 1 = off + (a2.length + 1) + 1 := by
      omega
    by_cases hc : c = '\n'
    · subst hc
      rw [List.cons_append,
        show splitNlOff off ('\n' :: (a2 ++ '\n' :: b)) =
          (off, []) :: splitNlOff (off + 1) (a2 ++ '\n' :: b) from by
            simp [splitNlOff],
        show splitNlOff off ('\n' :: a2) =
          (off, []) :: splitNlOff (off + 1) a2 from by simp [splitNlOff],
        ih (off + 1) b, harg]
      simp
    · rw [List.cons_append]
      simp only [splitNlOff, if_neg hc, List.append_eq]
      rw [ih (off + 1) b]
      cases hs : splitNlOff (off + 1) a2 with
      | nil => exact absurd hs (splitNlOff_ne_nil _ _)
      | cons s2 ss2 =>
        rcases s2 with ⟨o2, l2⟩
        simp [harg]

theorem splitNlOff_no_nl (s : Str) : ∀ (off : Nat), '\n' ∉ s →
    splitNlOff off s = [(off, s)] := by
  induction s with
  | nil => intro off _; rfl
  | cons c rest ih =>
    intro off h
    have hc : c ≠ '\n' := fun he => h (he ▸ List.mem_cons_self c rest)
    have hr : '\n' ∉ rest := fun hm => h (List.mem_cons_of_mem c hm)
    simp only [splitNlOff, if_neg hc, ih (off + 1) hr]

/-! ## Token extraction over well-formed synthesized lines -/

/-- A single token of the synthesized format: nonempty and free of the
separator, quote and newline characters. -/
def tokOk (s : Str) : Prop := s ≠ [] ∧ ' ' ∉ s ∧ '\n' ∉ s ∧ '"' ∉ s

instance (s : Str) : Decidable (tokOk s) := by unfold tokOk; infer_instance

/-- A quoted field of the synthesized format (payee or narration): free of
quote and newline characters (it may be empty and contain spaces). -/
def quotedOk (s : Str) : Prop := '"' ∉ s ∧ '\n' ∉ s

instance (s : Str) : Decidable (quotedOk s) := by unfold quotedOk; infer_instance

theorem takeWhile_append_eq (p : Char → Bool) (t : Str) (x : Char) (r : Str)
    (ht : ∀ c ∈ t, p c = true) (hx : p x = false) :
    ((t ++ x :: r).takeWhile p) = t := by
  induction t with
  | nil => simp [List.takeWhile_cons, hx]
  | cons c t2 ih =>
    simp only [List.cons_append, List.takeWhile_cons,
      ht c (List.mem_cons_self _ _)]
    simp [ih (fun c2 h2 => ht c2 (List.mem_cons_of_mem _ h2))]

theorem drop_append_cons (t : Str) (x : Char) (r : Str) :
    (t ++ x :: r).drop (t.length + 1) = r := by
  have h1 : t ++ x :: r = (t ++ [x]) ++ r := by simp
  have h2 : t.length + 1 = (t ++ [x]).length := by simp
  rw [h1, h2, List.drop_left]

theorem drop_append_cons2 (t : Str) (x y : Char) (r : Str) :
    (t ++ x :: y :: r).drop (t.length + 2) = r := by
  have h1 : t ++ x :: y :: r = (t ++ [x, y]) ++ r := by simp
  have h2 : t.length + 2 = (t ++ [x, y]).length := by simp
  rw [h1, h2, List.drop_left]

theorem tokTake_append (t r : Str) (h : ' ' ∉ t) : tokTake (t ++ ' ' :: r) = t := by
  unfold tokTake
  exact takeWhile_append_eq _ t ' ' r
    (fun c hc => by simp; exact fun he => h (he ▸ hc)) (by simp)

theorem tokDrop_append (t r : Str) (h : ' ' ∉ t) : tokDrop (t ++ ' ' :: r) = r := by
  unfold tokDrop
  rw [tokTake_append t r h, drop_append_cons]

theorem takeWhile_quote (t r : Str) (h : '"' ∉ t) :
    ((t ++ '"' :: r).takeWhile (fun c => c ≠ '"')) = t :=
  takeWhile_append_eq _ t '"' r
    (fun c hc => by simp; exact fun he => h (he ▸ hc)) (by simp)

/-- The header line `add_transaction` synthesizes, without its
terminators. -/
def headerLineOf (tx : Transaction) : Str :=
  tx.date ++ ' ' :: tx.flag ++ ' ' :: '"' :: tx.payee.getD []
    ++ '"' :: ' ' :: '"' :: tx.narration.getD [] ++ ['"']

/-- One posting line `add_transaction` synthesizes, without its newline. -/
def postingLineOf (p : Posting) : Str :=
  ' ' :: ' ' :: p.account ++ ' ' :: p.amount ++ ' ' :: p.currency

theorem renderTxn_shape (tx : Transaction) :
    renderTxn tx = '\n' :: (headerLineOf tx ++
      '\n' :: tx.postings.flatMap (fun p => postingLineOf p ++ ['\n'])) := by
  unfold renderTxn headerLineOf postingLineOf
  simp

theorem parsePostingLine_fields (o : Nat) (p : Posting)
    (ha : tokOk p.account) (hm : tokOk p.amount) (_hc : tokOk p.currency) :
    (parsePostingLine o (postingLineOf p)).account = p.account ∧
    (parsePostingLine o (postingLineOf p)).amount = some p.amount ∧
    (parsePostingLine o (postingLineOf p)).currency = some p.currency := by
  have hrest : (postingLineOf p).drop 2 =
      p.account ++ ' ' :: (p.amount ++ ' ' :: p.currency) := by
    simp [postingLineOf]
  have hacc : tokTake ((postingLineOf p).drop 2) = p.account := by
    rw [hrest]
    exact tokTake_append _ _ ha.2.1
  have hd : tokDrop ((postingLineOf p).drop 2) =
      p.amount ++ ' ' :: p.currency := by
    rw [hrest]
    exact tokDrop_append _ _ ha.2.1
  have hamt : tokTake (tokDrop ((postingLineOf p).drop 2)) = p.amount := by
    rw [hd]
    exact tokTake_append _ _ hm.2.1
  have hcur : tokDrop (tokDrop ((postingLineOf p).drop 2)) = p.currency := by
    rw [hd]
    exact tokDrop_append _ _ hm.2.1
  simp only [parsePostingLine]
  exact ⟨hacc, by rw [hamt], by rw [hcur]⟩

theorem parseHeaderLine_fields (o : Nat) (tx : Transaction)
    (pairs : List (Nat × Str)) (pe nr : Str)
    (hdsp : ' ' ∉ tx.date)
    (hflag : tokOk tx.flag)
    (hpe : tx.payee = some pe) (hpeo : quotedOk pe)
    (hnr : tx.narration = some nr) (hnro : quotedOk nr) :
    (parseHeaderLine o (headerLineOf tx) pairs).dateStr = tx.date ∧
    (parseHeaderLine o (headerLineOf tx) pairs).dateSpan.start = o ∧
    (parseHeaderLine o (headerLineOf tx) pairs).flag = tx.flag ∧
    (parseHeaderLine o (headerLineOf tx) pairs).payee = some pe ∧
    (parseHeaderLine o (headerLineOf tx) pairs).narration = some nr ∧
    (parseHeaderLine o (headerLineOf tx) pairs).postings =
      pairs.map (fun pr => parsePostingLine pr.1 pr.2) := by
  have hshape : headerLineOf tx = tx.date ++ ' ' :: (tx.flag ++ ' ' ::
      ('"' :: (pe ++ '"' :: ' ' :: '"' :: (nr ++ ['"'])))) := by
    unfold headerLineOf
    rw [hpe, hnr]
    simp
  have hdate : tokTake (headerLineOf tx) = tx.date := by
    rw [hshape]
    exact tokTake_append _ _ hdsp
  have hr1 : tokDrop (headerLineOf tx) =
      tx.flag ++ ' ' :: ('"' :: (pe ++ '"' :: ' ' :: '"' :: (nr ++ ['"']))) := by
    rw [hshape]
    exact tokDrop_append _ _ hdsp
  have hflag2 : tokTake (tokDrop (headerLineOf tx)) = tx.flag := by
    rw [hr1]
    exact tokTake_append _ _ hflag.2.1
  have hr2 : tokDrop (tokDrop (headerLineOf tx)) =
      '"' :: (pe ++ '"' :: ' ' :: '"' :: (nr ++ ['"'])) := by
    rw [hr1]
    exact tokDrop_append _ _ hflag.2.1
  have hr2d : (tokDrop (tokDrop (headerLineOf tx))).drop 1 =
      pe ++ '"' :: ' ' :: '"' :: (nr ++ ['"']) := by
    rw [hr2]
    rfl
  have hpe2 : ((tokDrop (tokDrop (headerLineOf tx))).drop 1).takeWhile
      (fun c => c ≠ '"') = pe := by
    rw [hr2d]
    exact takeWhile_quote _ _ hpeo.1
  have hr3 : (((tokDrop (tokDrop (headerLineOf tx))).drop 1).drop
      (pe.length + 2)) = '"' :: (nr ++ ['"']) := by
    rw [hr2d]
    exact drop_append_cons2 pe '"' ' ' _
  have hnr2 : ((((tokDrop (tokDrop (headerLineOf tx))).drop 1).drop
      (pe.length + 2)).drop 1).takeWhile (fun c => c ≠ '"') = nr := by
    rw [hr3]
    show (nr ++ '"' :: []).takeWhile (fun c => c ≠ '"') = nr
    exact takeWhile_quote nr [] hnro.1
  refine ⟨?_, ?_, ?_, ?_, ?_, ?_⟩
  · exact hdate
  · rfl
  · exact hflag2
  · show some (((tokDrop (tokDrop (headerLineOf tx))).drop 1).takeWhile
      (fun c => c ≠ '"')) = some pe
    rw [hpe2]
  · show some (((((tokDrop (tokDrop (headerLineOf tx))).drop 1).drop
      ((((tokDrop (tokDrop (headerLineOf tx))).drop 1).takeWhile
        (fun c => c ≠ '"')).length + 2)).drop 1).takeWhile
          (fun c => c ≠ '"')) = some nr
    rw [hpe2, hnr2]
  · rfl

/-! ## Lexical facts about dates and period file names -/

/-- The canonical ISO date text for a year, month and day. -/
def dateOf (y m d : Nat) : Str :=
  padDec 4 y ++ '-' :: padDec 2 m ++ '-' :: padDec 2 d

theorem padDec_all_isDig (w n : Nat) : (padDec w n).all isDig = true := by
  unfold padDec
  rw [List.all_append, Bool.and_eq_true]
  refine ⟨?_, natToDec_all_isDig n⟩
  rw [List.all_eq_true]
  intro c hc
  rw [List.eq_of_mem_replicate hc]
  decide

theorem padDec_ne_nil (w n : Nat) : padDec w n ≠ [] := by
  unfold padDec
  intro h
  exact natToDec_ne_nil n (List.append_eq_nil.1 h).2

theorem not_mem_padDec {c : Char} (hc : isDig c = false) (w n : Nat) :
    c ∉ padDec w n :=
  mem_of_isDig_false_of_all (padDec_all_isDig w n) hc

theorem not_mem_dateOf {c : Char} (hc : isDig c = false) (hdash : c ≠ '-')
    (y m d : Nat) : c ∉ dateOf y m d := by
  unfold dateOf
  intro hm
  simp only [List.mem_append, List.mem_cons] at hm
  rcases hm with (hm | hm | hm) | hm | hm
  · exact not_mem_padDec hc 4 y hm
  · exact hdash hm
  · exact not_mem_padDec hc 2 m hm
  · exact hdash hm
  · exact not_mem_padDec hc 2 d hm

theorem head_isDig_of_all {s : Str} (h : s.all isDig = true) (hne : s ≠ []) :
    ∃ c cs, s = c :: cs ∧ isDig c = true := by
  obtain ⟨c, cs, hcons⟩ := List.exists_cons_of_ne_nil hne
  refine ⟨c, cs, hcons, ?_⟩
  rw [hcons, List.all_cons, Bool.and_eq_true] at h
  exact h.1

theorem foldl_digits_replicate (k : Nat) :
    List.foldl (fun a c => a * 10 + charVal c) 0 (List.replicate k '0') = 0 := by
  induction k with
  | zero => rfl
  | succ k ih =>
    rw [List.replicate_succ, List.foldl_cons]
    simpa using ih

theorem digitsVal_padDec (w n : Nat) : digitsVal (padDec w n) = n := by
  unfold padDec digitsVal
  rw [List.foldl_append, foldl_digits_replicate]
  exact digitsVal_natToDec n

theorem chronoParseYMD_dateOf (y m d : Nat) (hm1 : 1 ≤ m) (hm2 : m ≤ 12)
    (hd1 : 1 ≤ d) (hd2 : d ≤ daysInMonth y m) :
    chronoParseYMD (dateOf y m d) = some (y, m, d) := by
  have hsplit : splitCh '-' (dateOf y m d) =
      [padDec 4 y, padDec 2 m, padDec 2 d] := by
    unfold dateOf
    rw [splitCh_append_sep, splitCh_append_sep,
      splitCh_no_sep '-' (padDec 4 y) (not_mem_padDec (by decide) 4 y),
      splitCh_no_sep '-' (padDec 2 m) (not_mem_padDec (by decide) 2 m),
      splitCh_no_sep '-' (padDec 2 d) (not_mem_padDec (by decide) 2 d)]
    rfl
  unfold chronoParseYMD
  rw [hsplit]
  simp [padDec_ne_nil, padDec_all_isDig, digitsVal_padDec, hm1, hm2, hd1, hd2]

theorem bean_suffix_split (stem : Str) (hdot : '.' ∉ stem) :
    splitCh '.' (stem ++ ".bean".toList) = [stem, "bean".toList] := by
  have hshape : stem ++ ".bean".toList = stem ++ '.' :: "bean".toList := rfl
  rw [hshape, splitCh_append_sep,
    splitCh_no_sep '.' stem hdot,
    splitCh_no_sep '.' "bean".toList (by decide)]
  rfl

theorem dot_not_mem_stem (y m : Nat) :
    '.' ∉ padDec 4 y ++ '-' :: padDec 2 m := by
  intro hm
  simp only [List.mem_append, List.mem_cons] at hm
  rcases hm with hm | hm | hm
  · exact not_mem_padDec (by decide) 4 y hm
  · exact absurd hm (by decide)
  · exact not_mem_padDec (by decide) 2 m hm

theorem periodFilename_shape (y m : Nat) :
    periodFilename y m = (padDec 4 y ++ '-' :: padDec 2 m) ++ ".bean".toList := by
  unfold periodFilename
  simp

theorem extension_periodFilename (y m : Nat) :
    extension (periodFilename y m) = some "bean".toList := by
  rw [periodFilename_shape]
  unfold extension
  rw [bean_suffix_split _ (dot_not_mem_stem y m)]
  have hne : padDec 4 y ++ '-' :: padDec 2 m ≠ [] := by
    intro h
    exact padDec_ne_nil 4 y (List.append_eq_nil.1 h).1
  simp [hne]

theorem periodFilename_ne_main (y m : Nat) :
    periodFilename y m ≠ "main.bean".toList := by
  rw [periodFilename_shape]
  intro h
  obtain ⟨c, cs, hcons, hdig⟩ :=
    head_isDig_of_all (padDec_all_isDig 4 y) (padDec_ne_nil 4 y)
  rw [hcons] at h
  simp only [List.cons_append, List.append_assoc] at h
  have hc : c = 'm' := by
    have := congrArg List.head? h
    simpa using this
  rw [hc] at hdig
  exact absurd hdig (by decide)

theorem not_mem_periodFilename {c : Char} (hc : isDig c = false)
    (hdash : c ≠ '-') (hext : c ∉ ".bean".toList) (y m : Nat) :
    c ∉ periodFilename y m := by
  rw [periodFilename_shape]
  intro hm
  simp only [List.mem_append, List.mem_cons] at hm
  rcases hm with (hm | hm | hm) | hm
  · exact not_mem_padDec hc 4 y hm
  · exact hdash hm
  · exact not_mem_padDec hc 2 m hm
  · exact hext (by simpa using hm)

theorem slash_not_mem_periodFilename (y m : Nat) :
    '/' ∉ periodFilename y m :=
  not_mem_periodFilename (by decide) (by decide) (by decide) y m

theorem nl_not_mem_periodFilename (y m : Nat) :
    '\n' ∉ periodFilename y m :=
  not_mem_periodFilename (by decide) (by decide) (by decide) y m

/-! ## Line-level facts about the synthesized entry -/

theorem nl_not_mem_postingLineOf (p : Posting) (ha : tokOk p.account)
    (hm : tokOk p.amount) (hc : tokOk p.currency) :
    '\n' ∉ postingLineOf p := by
  unfold postingLineOf
  intro h
  simp only [List.mem_append, List.mem_cons] at h
  rcases h with ((h | h | h) | h | h) | h | h
  · exact absurd h (by decide)
  · exact absurd h (by decide)
  · exact ha.2.2.1 h
  · exact absurd h (by decide)
  · exact hm.2.2.1 h
  · exact absurd h (by decide)
  · exact hc.2.2.1 h

theorem nl_not_mem_headerLineOf (tx : Transaction) (y m d : Nat)
    (pe nr : Str) (hdate : tx.date = dateOf y m d) (hflag : tokOk tx.flag)
    (hpe : tx.payee = some pe) (hpeo : quotedOk pe)
    (hnr : tx.narration = some nr) (hnro : quotedOk nr) :
    '\n' ∉ headerLineOf tx := by
  unfold headerLineOf
  rw [hpe, hnr]
  intro h
  simp only [Option.getD_some, List.mem_append, List.mem_cons] at h
  rcases h with (((h | h | h) | h | h | h) | h | h | h | h) | h | h
  · exact not_mem_dateOf (by decide) (by decide) y m d (hdate ▸ h)
  · exact absurd h (by decide)
  · exact hflag.2.2.1 h
  · exact absurd h (by decide)
  · exact absurd h (by decide)
  · exact hpeo.2 h
  · exact absurd h (by decide)
  · exact absurd h (by decide)
  · exact absurd h (by decide)
  · exact hnro.2 h
  · exact absurd h (by decide)
  · exact absurd h (List.not_mem_nil _)

theorem startsTxn_headerLineOf (tx : Transaction) (y m d : Nat)
    (hdate : tx.date = dateOf y m d) : startsTxn (headerLineOf tx) = true := by
  obtain ⟨c, cs, hcons, hdig⟩ :=
    head_isDig_of_all (padDec_all_isDig 4 y) (padDec_ne_nil 4 y)
  have hdc : tx.date = c :: (cs ++ '-' :: padDec 2 m ++ '-' :: padDec 2 d) := by
    rw [hdate]
    unfold dateOf
    rw [hcons]
    simp
  unfold headerLineOf
  rw [hdc]
  simp only [List.cons_append]
  simp [startsTxn, hdig]

theorem isPostingLine_headerLineOf (tx : Transaction) (y m d : Nat)
    (hdate : tx.date = dateOf y m d) :
    isPostingLine (headerLineOf tx) = false := by
  obtain ⟨c, cs, hcons, hdig⟩ :=
    head_isDig_of_all (padDec_all_isDig 4 y) (padDec_ne_nil 4 y)
  have hne : c ≠ ' ' := by
    intro he
    rw [he] at hdig
    exact absurd hdig (by decide)
  have hdc : tx.date = c :: (cs ++ '-' :: padDec 2 m ++ '-' :: padDec 2 d) := by
    rw [hdate]
    unfold dateOf
    rw [hcons]
    simp
  unfold headerLineOf isPostingLine
  rw [hdc]
  simp only [List.cons_append]
  simp [List.isPrefixOf]
  exact fun he => absurd he.symm hne

theorem isPostingLine_postingLineOf (p : Posting) :
    isPostingLine (postingLineOf p) = true := by
  unfold isPostingLine postingLineOf
  rw [List.isPrefixOf_iff_prefix]
  exact ⟨_, rfl⟩

theorem startsTxn_postingLineOf (p : Posting) :
    startsTxn (postingLineOf p) = false := by
  unfold startsTxn postingLineOf
  simp [isDig]

/-! ## Lines of the synthesized posting block -/

theorem splitNlOff_postings (ps : List Posting)
    (hok : ∀ p ∈ ps, '\n' ∉ postingLineOf p) :
    ∀ o : Nat, ∃ (pairs : List (Nat × Str)) (oEnd : Nat),
      splitNlOff o (ps.flatMap (fun p => postingLineOf p ++ ['\n'])) =
        pairs ++ [(oEnd, [])] ∧
      pairs.map Prod.snd = ps.map postingLineOf := by
  induction ps with
  | nil => intro o; exact ⟨[], o, rfl, rfl⟩
  | cons p ps ih =>
    intro o
    obtain ⟨pairs, oEnd, heq, hmap⟩ :=
      ih (fun p2 h2 => hok p2 (List.mem_cons_of_mem _ h2))
        (o + (postingLineOf p).length + 1)
    refine ⟨(o, postingLineOf p) :: pairs, oEnd, ?_, ?_⟩
    · have hshape : (postingLineOf p ++ ['\n']) ++
          ps.flatMap (fun q => postingLineOf q ++ ['\n']) =
          postingLineOf p ++ '\n' ::
            ps.flatMap (fun q => postingLineOf q ++ ['\n']) := by
        simp
      rw [List.flatMap_cons, hshape, splitNlOff_append_sep,
        splitNlOff_no_nl _ _ (hok p (List.mem_cons_self _ _)), heq]
      simp
    · simp [hmap]

/-! ## Parsed posting fields from the rendered lines -/

theorem postings_fields_of_map (pairs : List (Nat × Str)) :
    ∀ ps : List Posting,
      pairs.map Prod.snd = ps.map postingLineOf →
      (∀ p ∈ ps, tokOk p.account ∧ tokOk p.amount ∧ tokOk p.currency) →
      pairs.map (fun pr =>
        ((parsePostingLine pr.1 pr.2).account,
         (parsePostingLine pr.1 pr.2).amount.getD [],
         (parsePostingLine pr.1 pr.2).currency.getD [])) =
      ps.map (fun p => (p.account, p.amount, p.currency)) := by
  induction pairs with
  | nil =>
    intro ps h _
    have : ps.map postingLineOf = [] := h.symm.trans rfl ▸ rfl
    rw [List.map_eq_nil] at this
    subst this
    rfl
  | cons pr pairs ih =>
    intro ps h hwf
    cases ps with
    | nil => simp at h
    | cons p ps2 =>
      simp only [List.map_cons, List.cons.injEq] at h
      obtain ⟨h1, h2⟩ := h
      obtain ⟨ha, hm, hc⟩ := hwf p (List.mem_cons_self _ _)
      obtain ⟨f1, f2, f3⟩ := parsePostingLine_fields pr.1 p ha hm hc
      simp only [List.map_cons, List.cons.injEq]
      constructor
      · rw [h1, f1, f2, f3]
        rfl
      · exact ih ps2 h2 (fun q hq => hwf q (List.mem_cons_of_mem _ hq))

/-! ## Parsing a ledger file with one synthesized entry appended -/

theorem parseLedger_append_renderTxn (content : Str) (tx : Transaction)
    (y m d : Nat) (pe nr : Str)
    (hdate : tx.date = dateOf y m d)
    (hflag : tokOk tx.flag)
    (hpe : tx.payee = some pe) (hpeo : quotedOk pe)
    (hnr : tx.narration = some nr) (hnro : quotedOk nr)
    (hpost : ∀ p ∈ tx.postings,
      tokOk p.account ∧ tokOk p.amount ∧ tokOk p.currency) :
    ∃ t : ParsedTxn,
      parseLedger (content ++ renderTxn tx) =
        parseLedger content ++ [Directive.txn t] ∧
      t.dateStr = tx.date ∧
      t.dateSpan.start = content.length + 1 ∧
      t.flag = tx.flag ∧
      t.payee = some pe ∧
      t.narration = some nr ∧
      t.postings.map (fun pp =>
        (pp.account, pp.amount.getD [], pp.currency.getD [])) =
        tx.postings.map (fun p => (p.account, p.amount, p.currency)) := by
  obtain ⟨pairs, oEnd, hsplitP, hmap⟩ :=
    splitNlOff_postings tx.postings
      (fun p hp => nl_not_mem_postingLineOf p (hpost p hp).1 (hpost p hp).2.1
        (hpost p hp).2.2)
      (content.length + 1 + (headerLineOf tx).length + 1)
  have hnlhdr : '\n' ∉ headerLineOf tx :=
    nl_not_mem_headerLineOf tx y m d pe nr hdate hflag hpe hpeo hnr hnro
  have hlines : splitNlOff 0 (content ++ renderTxn tx) =
      splitNlOff 0 content ++
        ((content.length + 1, headerLineOf tx) :: (pairs ++ [(oEnd, [])])) := by
    rw [renderTxn_shape, splitNlOff_append_sep, splitNlOff_append_sep]
    simp only [Nat.zero_add]
    rw [splitNlOff_no_nl _ _ hnlhdr, hsplitP]
    simp
  have hall : ∀ pr ∈ pairs, isPostingLine pr.2 = true := by
    intro pr hpr
    have hmem : pr.2 ∈ pairs.map Prod.snd := List.mem_map_of_mem _ hpr
    rw [hmap] at hmem
    obtain ⟨p, _, hpeq⟩ := List.mem_map.1 hmem
    rw [← hpeq]
    exact isPostingLine_postingLineOf p
  have hgroup : groupTxns (splitNlOff 0 (content ++ renderTxn tx)) =
      groupTxns (splitNlOff 0 content) ++
        [parseHeaderLine (content.length + 1) (headerLineOf tx) pairs] := by
    rw [hlines, groupTxns_append _ _ (by
      intro b0 hb0
      injection hb0 with hb0
      rw [← hb0]
      exact isPostingLine_headerLineOf tx y m d hdate)]
    congr 1
    rw [groupTxns_cons, if_pos (startsTxn_headerLineOf tx y m d hdate),
      takeWhile_all_append _ pairs _ hall, dropWhile_all_append _ pairs _ hall]
    have h3 : List.takeWhile (fun pr => isPostingLine pr.2)
        [(oEnd, ([] : Str))] = [] := rfl
    have h4 : List.dropWhile (fun pr => isPostingLine pr.2)
        [(oEnd, ([] : Str))] = [(oEnd, ([] : Str))] := rfl
    rw [h3, h4, groupTxns_cons]
    have h5 : startsTxn ([] : Str) = false := rfl
    rw [h5]
    simp [groupTxns_nil]
  have hdsp : ' ' ∉ tx.date :=
    hdate ▸ not_mem_dateOf (by decide) (by decide) y m d
  obtain ⟨g1, g2, g3, g4, g5, g6⟩ := parseHeaderLine_fields
    (content.length + 1) tx pairs pe nr hdsp hflag hpe hpeo hnr hnro
  refine ⟨parseHeaderLine (content.length + 1) (headerLineOf tx) pairs,
    ?_, g1, g2, g3, g4, g5, ?_⟩
  · unfold parseLedger
    rw [hgroup, List.map_append]
    rfl
  · rw [g6, List.map_map]
    exact postings_fields_of_map pairs tx.postings hmap hpost

/-! ## Claim C2: adding then listing recovers the transaction -/

theorem fsRead_mem (dir : Dir) (p c : Str) (h : fsRead dir p = some c) :
    (p, c) ∈ dir := by
  induction dir with
  | nil => exact absurd h (by simp [fsRead])
  | cons qd rest ih =>
    rcases qd with ⟨q, cq⟩
    by_cases hq : q = p
    · rw [fsRead, if_pos hq] at h
      injection h with h
      subst hq
      subst h
      exact List.mem_cons_self _ _
    · rw [fsRead, if_neg hq] at h
      exact List.mem_cons_of_mem _ (ih h)

theorem walkName_pathJoin (dataDir f : Str) (hs : '/' ∉ f)
    (hext : extension f = some "bean".toList) (hmb : f ≠ "main.bean".toList) :
    walkName dataDir (pathJoin dataDir f) = some f := by
  unfold walkName pathJoin
  have hpre : (dataDir ++ ['/']).isPrefixOf (dataDir ++ '/' :: f) = true := by
    rw [List.isPrefixOf_iff_prefix]
    exact ⟨f, by simp⟩
  rw [if_pos hpre]
  have hdrop : (dataDir ++ '/' :: f).drop (dataDir.length + 1) = f :=
    drop_append_cons dataDir '/' f
  rw [hdrop]
  have hcont : f.contains '/' = false := by simpa using hs
  simp [hcont, hext, hmb]
  exact ⟨hs, hmb⟩

theorem add_transaction_result (dataDir : Str) (dir : Dir) (tx : Transaction)
    (y m d : Nat) (hp : chronoParseYMD tx.date = some (y, m, d)) :
    (add_transaction dataDir dir tx).1 = none ∧
    fsRead (add_transaction dataDir dir tx).2
        (pathJoin dataDir (periodFilename y m)) =
      some ((fsRead dir (pathJoin dataDir (periodFilename y m))).getD []
        ++ renderTxn tx) := by
  have hne : pathJoin dataDir (periodFilename y m) ≠
      pathJoin dataDir "main.bean".toList :=
    fun he => periodFilename_ne_main y m (pathJoin_right_inj dataDir _ _ he)
  simp only [add_transaction, hp]
  by_cases hc : containsSub (includeLine (periodFilename y m))
      ((fsRead (fsAppend dir (pathJoin dataDir (periodFilename y m))
          (renderTxn tx)) (pathJoin dataDir "main.bean".toList)).getD []) = true
  · rw [if_pos hc]
    exact ⟨rfl, fsRead_fsAppend_self dir _ _⟩
  · rw [if_neg hc]
    refine ⟨rfl, ?_⟩
    rw [fsRead_fsAppend_ne _ _ _ _ hne]
    exact fsRead_fsAppend_self dir _ _

/-- C2: adding a well-formed transaction to a ledger directory and then
listing that directory yields an entry whose date, flag, payee, narration
and postings' account/amount/currency (in order) equal the input's, whose
tags are empty and whose postings carry no cost or price (the lossy
fields), and whose identifier encodes the period file's path together
with the byte offset of the appended entry's date token (one past the
previous end of the file, after the separating newline). -/
theorem C2_add_then_list_roundtrip (dataDir : Str) (dir : Dir)
    (tx : Transaction) (y m d : Nat) (pe nr : Str)
    (hdate : tx.date = dateOf y m d)
    (hm1 : 1 ≤ m) (hm2 : m ≤ 12) (hd1 : 1 ≤ d) (hd2 : d ≤ daysInMonth y m)
    (hflag : tokOk tx.flag)
    (hpe : tx.payee = some pe) (hpeo : quotedOk pe)
    (hnr : tx.narration = some nr) (hnro : quotedOk nr)
    (hpost : ∀ p ∈ tx.postings,
      tokOk p.account ∧ tokOk p.amount ∧ tokOk p.currency) :
    (add_transaction dataDir dir tx).1 = none ∧
    ∃ ltx ∈ list_transactions parseLedger dataDir
        (add_transaction dataDir dir tx).2,
      ltx.id = some (encodeId (pathJoin dataDir (periodFilename y m))
        (((fsRead dir (pathJoin dataDir (periodFilename y m))).getD
          []).length + 1)) ∧
      ltx.date = tx.date ∧ ltx.flag = tx.flag ∧ ltx.payee = tx.payee ∧
      ltx.narration = tx.narration ∧ ltx.tags = [] ∧
      ltx.postings.map (fun p => (p.account, p.amount, p.currency)) =
        tx.postings.map (fun p => (p.account, p.amount, p.currency)) ∧
      (∀ p ∈ ltx.postings, p.cost = none ∧ p.price = none) := by
  have hp : chronoParseYMD tx.date = some (y, m, d) := by
    rw [hdate]
    exact chronoParseYMD_dateOf y m d hm1 hm2 hd1 hd2
  obtain ⟨hr1, hr2⟩ := add_transaction_result dataDir dir tx y m d hp
  obtain ⟨t, hpar, f1, f2, f3, f4, f5, f6⟩ :=
    parseLedger_append_renderTxn
      ((fsRead dir (pathJoin dataDir (periodFilename y m))).getD []) tx
      y m d pe nr hdate hflag hpe hpeo hnr hnro hpost
  refine ⟨hr1, toTransaction (pathJoin dataDir (periodFilename y m)) t,
    ?_, ?_, ?_, ?_, ?_, ?_, ?_, ?_, ?_⟩
  · rw [list_transactions, (List.mergeSort_perm _ txnLe).mem_iff,
      List.mem_flatMap]
    refine ⟨(pathJoin dataDir (periodFilename y m),
      (fsRead dir (pathJoin dataDir (periodFilename y m))).getD []
        ++ renderTxn tx), fsRead_mem _ _ _ hr2, ?_⟩
    rw [walkName_pathJoin dataDir (periodFilename y m)
      (slash_not_mem_periodFilename y m) (extension_periodFilename y m)
      (periodFilename_ne_main y m)]
    unfold parse_file_transactions
    rw [hpar, List.filterMap_append]
    have hsingle : List.filterMap dirTxn [Directive.txn t] = [t] := rfl
    rw [hsingle]
    exact List.mem_map_of_mem _ (List.mem_append_right _
      (List.mem_singleton.2 rfl))
  · show some (encodeId (pathJoin dataDir (periodFilename y m))
      t.dateSpan.start) = _
    rw [f2]
  · exact f1
  · exact f3
  · show t.payee = tx.payee
    rw [f4, hpe]
  · show t.narration = tx.narration
    rw [f5, hnr]
  · rfl
  · show (t.postings.map _).map _ = _
    rw [List.map_map]
    exact f6
  · intro p hp2
    simp only [toTransaction, List.mem_map] at hp2
    obtain ⟨pp, _, hpp⟩ := hp2
    rw [← hpp]
    exact ⟨rfl, rfl⟩

/-- The concrete transaction used by the C2 witness. -/
def c2SampleTx : Transaction :=
  { id := none
    date := "2024-01-15".toList
    flag := "*".toList
    payee := some "Shop".toList
    narration := some "Lunch".toList
    tags := []
    postings :=
      [{ account := "Assets:Cash".toList
         amount := "10.50".toList
         currency := "USD".toList
         cost := none
         price := none }] }

/-- Witness for C2: the sample transaction added to an empty directory is
recovered by the subsequent listing, with its id at byte offset 1 of the
fresh period file. -/
theorem C2_add_then_list_roundtrip_witness :
    (add_transaction "data".toList [] c2SampleTx).1 = none ∧
    ∃ ltx ∈ list_transactions parseLedger "data".toList
        (add_transaction "data".toList [] c2SampleTx).2,
      ltx.id = some (encodeId (pathJoin "data".toList (periodFilename 2024 1))
        (((fsRead [] (pathJoin "data".toList
          (periodFilename 2024 1))).getD []).length + 1)) ∧
      ltx.date = c2SampleTx.date ∧ ltx.flag = c2SampleTx.flag ∧
      ltx.payee = c2SampleTx.payee ∧ ltx.narration = c2SampleTx.narration ∧
      ltx.tags = [] ∧
      ltx.postings.map (fun p => (p.account, p.amount, p.currency)) =
        c2SampleTx.postings.map (fun p => (p.account, p.amount, p.currency)) ∧
      (∀ p ∈ ltx.postings, p.cost = none ∧ p.price = none) :=
  C2_add_then_list_roundtrip "data".toList [] c2SampleTx 2024 1 15
    "Shop".toList "Lunch".toList (by decide) (by decide) (by decide)
    (by decide) (by decide) (by decide) (by decide) (by decide) (by decide)
    (by decide) (by decide)
